import Mathlib

set_option maxHeartbeats 1000000

/-!
Verification development for the credit-card statement parser (`src/app.py`).

The Python source works on `str` values; here text is a `List Char`.  The
regular expressions of the source are embedded as terms of a small `Regex`
type (all quantifiers in the source act on single character classes, which the
type reflects), matched by a backtracking matcher with Python `re.search`
semantics: leftmost starting position wins, alternatives are tried left to
right, greedy and lazy repetition backtrack.  Fallible Python code (an
exception escaping a function) is modelled with `Except`.
-/

/-- ASCII lowercasing, modelling Python `str.lower` on the ASCII range
(the keywords and patterns of the source are all ASCII). -/
def lowerChar (c : Char) : Char :=
  if 65 ≤ c.toNat ∧ c.toNat ≤ 90 then Char.ofNat (c.toNat + 32) else c

/-- Python whitespace for `str` values: the set matched by the regex class
`\s` and stripped by `str.strip` (ASCII whitespace, the C1 whitespace
controls, and the Unicode space characters). -/
def isSpacePy (c : Char) : Bool :=
  decide ((9 ≤ c.toNat ∧ c.toNat ≤ 13) ∨ c.toNat = 32 ∨ (28 ≤ c.toNat ∧ c.toNat ≤ 31) ∨
    c.toNat = 133 ∨ c.toNat = 160 ∨ c.toNat = 0x1680 ∨
    (0x2000 ≤ c.toNat ∧ c.toNat ≤ 0x200a) ∨ c.toNat = 0x2028 ∨ c.toNat = 0x2029 ∨
    c.toNat = 0x202f ∨ c.toNat = 0x205f ∨ c.toNat = 0x3000)

/-- Python regex `\d` for `str` patterns: Unicode decimal digits
(category Nd), not only ASCII.  Modelled by ASCII `0-9` together with
representative Nd ranges (Arabic-Indic, Extended Arabic-Indic, Devanagari,
fullwidth digits); the development only relies on the ASCII range and
U+0660–U+0669. -/
def isDigitPy (c : Char) : Bool :=
  decide ((48 ≤ c.toNat ∧ c.toNat ≤ 57) ∨ (0x660 ≤ c.toNat ∧ c.toNat ≤ 0x669) ∨
    (0x6f0 ≤ c.toNat ∧ c.toNat ≤ 0x6f9) ∨ (0x966 ≤ c.toNat ∧ c.toNat ≤ 0x96f) ∨
    (0xff10 ≤ c.toNat ∧ c.toNat ≤ 0xff19))

def isAsciiDigit (c : Char) : Bool := decide (48 ≤ c.toNat ∧ c.toNat ≤ 57)

def isAsciiLetter (c : Char) : Bool :=
  decide ((65 ≤ c.toNat ∧ c.toNat ≤ 90) ∨ (97 ≤ c.toNat ∧ c.toNat ≤ 122))

/-- Python regex `\w` (word character); modelled on the character ranges the
source's patterns can meet: letters, digits and underscore. -/
def isWordPy (c : Char) : Bool := isAsciiLetter c || isDigitPy c || c == '_'

/-- The character list of a string literal. -/
def chars (s : String) : List Char := s.data

def lowerL (l : List Char) : List Char := l.map lowerChar

/-- `re.sub(r'\s+', ' ', s)`: replace every maximal whitespace run by one
space.  The flag records whether we are inside a run whose single space has
already been emitted. -/
def subSpacesB : Bool → List Char → List Char
  | _, [] => []
  | inRun, c :: rest =>
    if isSpacePy c then
      if inRun then subSpacesB true rest else ' ' :: subSpacesB true rest
    else c :: subSpacesB false rest

/-- Remove trailing Python whitespace (the right half of `str.strip`). -/
def dropTrailWs (l : List Char) : List Char :=
  (l.reverse.dropWhile isSpacePy).reverse

/-- Python `str.strip()`. -/
def stripL (l : List Char) : List Char :=
  dropTrailWs (l.dropWhile isSpacePy)

/-- `normalize_spaces` (src/app.py line 14): `re.sub(r'\s+', ' ', s).strip()`. -/
def normalize_spaces (l : List Char) : List Char :=
  stripL (subSpacesB false l)

/-- `a` is a literal prefix of `b` (character lists). -/
def isPrefixCh : List Char → List Char → Bool
  | [], _ => true
  | _ :: _, [] => false
  | a :: as, b :: bs => a == b && isPrefixCh as bs

/-- Python `pat in s`: literal substring containment. -/
def isSubstr (pat : List Char) : List Char → Bool
  | [] => isPrefixCh pat []
  | s@(_ :: rest) => isPrefixCh pat s || isSubstr pat rest

/-- `w` matches case-insensitively at the head of `s`. -/
def matchesCI : List Char → List Char → Bool
  | [], _ => true
  | _ :: _, [] => false
  | a :: as, b :: bs => (lowerChar b == lowerChar a) && matchesCI as bs

/-- `w` occurs case-insensitively somewhere in `s`. -/
def containsCI (w : List Char) : List Char → Bool
  | [] => matchesCI w []
  | s@(_ :: rest) => matchesCI w s || containsCI w rest

/-!  ### The regex fragment used by src/app.py

Every repetition operator in the source's patterns applies to a single
character class, so repetition nodes carry a character predicate directly. -/

inductive Regex where
  | eps : Regex
  | pred : (Char → Bool) → Regex
  | cat : Regex → Regex → Regex
  | alt : Regex → Regex → Regex
  | starG : (Char → Bool) → Regex
  | starL : (Char → Bool) → Regex
  | group : Nat → Regex → Regex

/-- A pattern character under `re.IGNORECASE`. -/
def chI (c : Char) : Regex := Regex.pred (fun x => lowerChar x == lowerChar c)

/-- A literal pattern string under `re.IGNORECASE`. -/
def strI (s : String) : Regex :=
  (chars s).foldr (fun c r => Regex.cat (chI c) r) Regex.eps

/-- Ordered alternation `p1|p2|...` (leftmost alternative preferred). -/
def altL : List Regex → Regex
  | [] => Regex.pred (fun _ => false)
  | [r] => r
  | r :: rest => Regex.alt r (altL rest)

/-- Greedy `?` on a subpattern. -/
def optC (r : Regex) : Regex := Regex.alt r Regex.eps

/-- Greedy `+` on a character class. -/
def plusC (p : Char → Bool) : Regex := Regex.cat (Regex.pred p) (Regex.starG p)

/-- `\d{4}`. -/
def dig4 : Regex :=
  Regex.cat (Regex.pred isDigitPy) (Regex.cat (Regex.pred isDigitPy)
    (Regex.cat (Regex.pred isDigitPy) (Regex.pred isDigitPy)))

/-- `.` without `re.DOTALL` (any character except a newline). -/
def dotNoNL : Regex := Regex.starG (fun c => !(c == '\n'))

/-- The class `[:\s]`. -/
def clsColSp (c : Char) : Bool := c == ':' || isSpacePy c

/-- The class `[A-Za-z0-9 ,\-]` (due-date captures). -/
def clsDue (c : Char) : Bool := isAsciiLetter c || isAsciiDigit c || c == ' ' || c == ',' || c == '-'

/-- The class `[,\d\.]` (amount captures). -/
def clsAmt (c : Char) : Bool := c == ',' || isDigitPy c || c == '.'

/-- The statement-period capture class: word characters, comma, whitespace,
hyphen, slash, digits. -/
def clsPeriod (c : Char) : Bool :=
  isWordPy c || c == ',' || isSpacePy c || c == '-' || c == '/' || isDigitPy c

/-- The class `[A-Za-z0-9 ]`. -/
def clsAlnumSp (c : Char) : Bool := isAsciiLetter c || isAsciiDigit c || c == ' '

/-- The class `[A-Za-z]`. -/
def clsAlpha (c : Char) : Bool := isAsciiLetter c

/-- Capture list: group index paired with the captured characters, most
recently closed group first (Python `m.group(i)` is the last value). -/
abbrev Caps := List (Nat × List Char)

/-- Greedy class repetition: consume as much as possible, give back on
failure of the continuation. -/
def greedyStar (p : Char → Bool) : List Char → Caps →
    (List Char → Caps → Option (Caps × List Char)) → Option (Caps × List Char)
  | [], caps, k => k [] caps
  | c :: rest, caps, k =>
    if p c then
      match greedyStar p rest caps k with
      | some res => some res
      | none => k (c :: rest) caps
    else k (c :: rest) caps

/-- Lazy class repetition: consume as little as possible. -/
def lazyStar (p : Char → Bool) : List Char → Caps →
    (List Char → Caps → Option (Caps × List Char)) → Option (Caps × List Char)
  | [], caps, k => k [] caps
  | c :: rest, caps, k =>
    match k (c :: rest) caps with
    | some res => some res
    | none => if p c then lazyStar p rest caps k else none

/-- Backtracking matcher in continuation style.  `matchCPS r s caps k`
tries to match `r` at the head of `s`; on each candidate way of matching it
calls `k` with the remaining suffix and the extended captures, committing to
the first way for which `k` succeeds.  This is Python `re`'s leftmost,
alternative-ordered, backtracking semantics for the fragment above. -/
def matchCPS : Regex → List Char → Caps →
    (List Char → Caps → Option (Caps × List Char)) → Option (Caps × List Char)
  | Regex.eps, s, caps, k => k s caps
  | Regex.pred p, s, caps, k =>
    match s with
    | [] => none
    | c :: rest => if p c then k rest caps else none
  | Regex.cat a b, s, caps, k =>
    matchCPS a s caps (fun s1 caps1 => matchCPS b s1 caps1 k)
  | Regex.alt a b, s, caps, k =>
    match matchCPS a s caps k with
    | some res => some res
    | none => matchCPS b s caps k
  | Regex.starG p, s, caps, k => greedyStar p s caps k
  | Regex.starL p, s, caps, k => lazyStar p s caps k
  | Regex.group n a, s, caps, k =>
    matchCPS a s caps
      (fun s1 caps1 => k s1 ((n, s.take (s.length - s1.length)) :: caps1))

/-- Result of a successful `re.search`: the suffix of the text where the
match starts, the group captures, and the suffix remaining after the match. -/
structure MatchRes where
  start : List Char
  caps : Caps
  rest : List Char
deriving DecidableEq

/-- The whole matched span, Python `m.group(0)`. -/
def MatchRes.whole (m : MatchRes) : List Char :=
  m.start.take (m.start.length - m.rest.length)

/-- The top-level continuation of a search: accept whatever remains. -/
def searchK : List Char → Caps → Option (Caps × List Char) :=
  fun s1 caps1 => some (caps1, s1)

/-- Try a match at each successive start position (leftmost match wins). -/
def reSearchAux (r : Regex) : List Char → Option MatchRes
  | [] =>
    match matchCPS r [] [] searchK with
    | some (caps, rest) => some { start := [], caps := caps, rest := rest }
    | none => none
  | c :: rest =>
    match matchCPS r (c :: rest) [] searchK with
    | some (caps, rest1) => some { start := c :: rest, caps := caps, rest := rest1 }
    | none => reSearchAux r rest

/-- Python `re.search(r, text)` for the embedded fragment. -/
def reSearch (r : Regex) (t : List Char) : Option MatchRes := reSearchAux r t

/-- Whether the pattern contains a capturing group (`m.groups()` nonempty,
a property of the pattern, not of the particular match). -/
def hasGroup : Regex → Bool
  | Regex.eps => false
  | Regex.pred _ => false
  | Regex.cat a b => hasGroup a || hasGroup b
  | Regex.alt a b => hasGroup a || hasGroup b
  | Regex.starG _ => false
  | Regex.starL _ => false
  | Regex.group _ _ => true

/-- Whether every successful match of the pattern necessarily records a
capture for group 1. -/
def mandatory1 : Regex → Bool
  | Regex.eps => false
  | Regex.pred _ => false
  | Regex.cat a b => mandatory1 a || mandatory1 b
  | Regex.alt a b => mandatory1 a && mandatory1 b
  | Regex.starG _ => false
  | Regex.starL _ => false
  | Regex.group n a => n == 1 || mandatory1 a

/-- Python `m.group(n)`: the most recent capture recorded for group `n`,
`none` when the group did not participate in the match. -/
def lookupCap (n : Nat) : Caps → Option (List Char)
  | [] => none
  | (m, v) :: rest => if m = n then some v else lookupCap n rest

/-- `a or b` on Python match objects. -/
def firstSome (a b : Option MatchRes) : Option MatchRes :=
  match a with
  | some m => some m
  | none => b

/-- `find_first_regex` (src/app.py lines 24–33).  Returns the first pattern
that matches together with `group(1).strip()` if the pattern has capturing
groups, else `group(0).strip()`.  When the matching pattern has groups but
group 1 did not participate in the match, the Python code calls
`None.strip()` and raises; that is the `.error` case. -/
def find_first_regex (t : List Char) : List Regex → Except Unit (Option (Regex × List Char))
  | [] => Except.ok none
  | p :: rest =>
    match reSearch p t with
    | some m =>
      if hasGroup p then
        match lookupCap 1 m.caps with
        | some g => Except.ok (some (p, stripL g))
        | none => Except.error ()
      else Except.ok (some (p, stripL m.whole))
    | none => find_first_regex t rest

/-- The value a parser keeps from a `find_first_regex` result:
`v[1] if v else None`. -/
def fieldVal (t : List Char) (pats : List Regex) : Except Unit (Option (List Char)) :=
  match find_first_regex t pats with
  | Except.error e => Except.error e
  | Except.ok none => Except.ok none
  | Except.ok (some pv) => Except.ok (some pv.2)

/-!  ### Date normalization -/

structure PyDate where
  year : Nat
  month : Nat
  day : Nat
deriving DecidableEq

inductive DTok where
  | word : List Char → DTok
  | num : List Char → DTok
deriving DecidableEq

/-- Tokenizer for the date model: maximal alphabetic and numeric runs. -/
def dtokensGo : Option DTok → List Char → List DTok
  | cur, [] => cur.toList
  | cur, c :: rest =>
    if isAsciiLetter c then
      match cur with
      | some (DTok.word w) => dtokensGo (some (DTok.word (w ++ [c]))) rest
      | some tk => tk :: dtokensGo (some (DTok.word [c])) rest
      | none => dtokensGo (some (DTok.word [c])) rest
    else if isAsciiDigit c then
      match cur with
      | some (DTok.num w) => dtokensGo (some (DTok.num (w ++ [c]))) rest
      | some tk => tk :: dtokensGo (some (DTok.num [c])) rest
      | none => dtokensGo (some (DTok.num [c])) rest
    else
      match cur with
      | some tk => tk :: dtokensGo none rest
      | none => dtokensGo none rest

def dtokens (l : List Char) : List DTok := dtokensGo none l

def monthNames : List (List Char × Nat) :=
  [(chars "january", 1), (chars "jan", 1), (chars "february", 2), (chars "feb", 2),
   (chars "march", 3), (chars "mar", 3), (chars "april", 4), (chars "apr", 4),
   (chars "may", 5), (chars "june", 6), (chars "jun", 6), (chars "july", 7),
   (chars "jul", 7), (chars "august", 8), (chars "aug", 8), (chars "september", 9),
   (chars "sep", 9), (chars "sept", 9), (chars "october", 10), (chars "oct", 10),
   (chars "november", 11), (chars "nov", 11), (chars "december", 12), (chars "dec", 12)]

def monthOf (w : List Char) : Option Nat :=
  (monthNames.find? (fun p => p.1 == lowerL w)).map (fun p => p.2)

def digitsVal (l : List Char) : Nat :=
  l.foldl (fun acc c => 10 * acc + (c.toNat - 48)) 0

def isLeap (y : Nat) : Bool := decide (y % 4 = 0 ∧ (y % 100 ≠ 0 ∨ y % 400 = 0))

def daysInMonth (y m : Nat) : Nat :=
  if m = 2 then (if isLeap y then 29 else 28)
  else if m = 4 ∨ m = 6 ∨ m = 9 ∨ m = 11 then 30
  else 31

/-- Calendar validation of an assembled date. -/
def mkDate (y m d : Nat) : Except String PyDate :=
  if 1 ≤ m ∧ m ≤ 12 ∧ 1 ≤ d ∧ d ≤ daysInMonth y m then Except.ok ⟨y, m, d⟩
  else Except.error "day is out of range for month"

/-- Modelled from the spec: `dateutil.parser.parse(text, dayfirst=False,
fuzzy=True)`, a third-party library call whose code is not under `src/`.
Per the spec's DateNormalizer contract it is a lenient, month-first,
"fuzzy" natural-language date parse permitting extraneous surrounding
words; on failure it raises (here: `Except.error`).  Model: alphabetic
tokens that are month names set the month and all other alphabetic tokens
are skipped; numeric tokens supply day and year (a 4-digit token is the
year; with a leading 4-digit token, numbers are read year-month-day, else
month-first); the assembled date must be a valid calendar date. -/
def dateutil_parse (s : List Char) : Except String PyDate :=
  let toks := dtokens s
  let months := toks.filterMap (fun t => match t with
    | DTok.word w => monthOf w
    | DTok.num _ => none)
  let nums := toks.filterMap (fun t => match t with
    | DTok.num w => some w
    | DTok.word _ => none)
  match months, nums with
  | [m], [d0, y0] =>
    if d0.length ≤ 2 ∧ y0.length = 4 then mkDate (digitsVal y0) m (digitsVal d0)
    else if d0.length = 4 ∧ y0.length ≤ 2 then mkDate (digitsVal d0) m (digitsVal y0)
    else Except.error "unrecognized date format"
  | [], [y0, m0, d0] =>
    if y0.length = 4 ∧ m0.length ≤ 2 ∧ d0.length ≤ 2 then
      mkDate (digitsVal y0) (digitsVal m0) (digitsVal d0)
    else if y0.length ≤ 2 ∧ m0.length ≤ 2 ∧ d0.length = 4 then
      mkDate (digitsVal d0) (digitsVal y0) (digitsVal m0)
    else Except.error "unrecognized date format"
  | _, _ => Except.error "string does not contain a date"

/-- The decimal digit character for `n % 10`. -/
def dg (n : Nat) : Char := Char.ofNat (48 + n % 10)

/-- `date.isoformat()`: zero-padded `YYYY-MM-DD` (datetime years are at
most 9999, so four digits). -/
def isoFormat (d : PyDate) : List Char :=
  [dg (d.year / 1000), dg (d.year / 100), dg (d.year / 10), dg d.year, '-',
   dg (d.month / 10), dg d.month, '-', dg (d.day / 10), dg d.day]

/-- Recognizer for the `YYYY-MM-DD` shape. -/
def isoShape : List Char → Bool
  | [a, b, c, d, e, f, g, h, i, j] =>
    isAsciiDigit a && isAsciiDigit b && isAsciiDigit c && isAsciiDigit d &&
    e == '-' && isAsciiDigit f && isAsciiDigit g && h == '-' &&
    isAsciiDigit i && isAsciiDigit j
  | _ => false

/-- `try_parse_date` (src/app.py lines 17–22): any exception from the date
parse is swallowed and becomes `None`. -/
def try_parse_date (text : List Char) : Option (List Char) :=
  match dateutil_parse text with
  | Except.ok d => some (isoFormat d)
  | Except.error _ => none

/-!  ### Issuer detection -/

/-- `detect_issuer` (src/app.py lines 39–53). -/
def detect_issuer (text : List Char) : List Char :=
  let t := lowerL text
  if isSubstr (chars "american express") t || isSubstr (chars "amex") t then
    chars "American Express"
  else if isSubstr (chars "chase") t || isSubstr (chars "chase cardmember") t then
    chars "Chase"
  else if isSubstr (chars "citibank") t || isSubstr (chars "citi") t then
    chars "Citi"
  else if isSubstr (chars "bank of america") t || isSubstr (chars "bofa") t then
    chars "Bank of America"
  else if isSubstr (chars "hsbc") t then
    chars "HSBC"
  else
    chars "Unknown"

/-- Spec-side restatement of the classifier (section 4.4 of the spec): a
fixed ordered rule list, first rule any of whose keywords occurs as a
substring of the lowercased text wins, `Unknown` as terminal fallback. -/
def issuerRules : List (List Char × List (List Char)) :=
  [(chars "American Express", [chars "american express", chars "amex"]),
   (chars "Chase", [chars "chase", chars "chase cardmember"]),
   (chars "Citi", [chars "citibank", chars "citi"]),
   (chars "Bank of America", [chars "bank of america", chars "bofa"]),
   (chars "HSBC", [chars "hsbc"])]

def classifySpec (text : List Char) : List Char :=
  match issuerRules.find? (fun rule => rule.2.any (fun kw => isSubstr kw (lowerL text))) with
  | some rule => rule.1
  | none => chars "Unknown"

/-!  ### Field records and per-issuer parsers -/

structure FieldRecord where
  issuer : List Char
  last4 : Option (List Char)
  card_variant : Option (List Char)
  statement_period : Option (List Char)
  due_date : Option (List Char)
  amount_due : Option (List Char)
deriving DecidableEq

/-- Projection used to state evaluations (`Except` over `Regex`-free data). -/
def okOf {α : Type} : Except Unit α → Option α
  | Except.ok a => some a
  | Except.error _ => none

/-- `r'Card ending in[:\s]*?(\d{4})'`, the second alternative of the amex
last-4 pattern, also a standalone pattern below. -/
def reCardEndingIn : Regex :=
  Regex.cat (strI "Card ending in") (Regex.cat (Regex.starL clsColSp) (Regex.group 1 dig4))

/-- `r'Card Member since.*|Card ending in[:\s]*?(\d{4})'` (line 63). -/
def reAmexLast4A : Regex :=
  Regex.alt (Regex.cat (strI "Card Member since") dotNoNL) reCardEndingIn

/-- `r'ending in[:\s]*?(\d{4})'` (line 65). -/
def reEndingInLazy : Regex :=
  Regex.cat (strI "ending in") (Regex.cat (Regex.starL clsColSp) (Regex.group 1 dig4))

/-- Lines 63–66: the amex last-4 value. -/
def amexLast4 (t : List Char) : Option (List Char) :=
  match reSearch reAmexLast4A t with
  | some m => if hasGroup reAmexLast4A then lookupCap 1 m.caps else none
  | none =>
    match reSearch reEndingInLazy t with
    | some m => if hasGroup reEndingInLazy then lookupCap 1 m.caps else none
    | none => none

/-- The amex last-4 value with the dead `Card Member since` alternative
removed: the first successful of the two remaining alternatives wins
(`Card ending in …` before bare `ending in …`), group 1 is the capture. -/
def amexLast4Spec (t : List Char) : Option (List Char) :=
  match reSearch reCardEndingIn t with
  | some m => lookupCap 1 m.caps
  | none =>
    match reSearch reEndingInLazy t with
    | some m => lookupCap 1 m.caps
    | none => none

def amexVariantPats : List Regex :=
  [Regex.cat (Regex.group 1 (altL [strI "Platinum", strI "Gold", strI "Green",
      strI "Centurion", strI "Blue", strI "Everyday", strI "Cashback", strI "Corporate"]))
     (Regex.cat (plusC isSpacePy) (strI "Card")),
   Regex.cat (strI "American Express") (Regex.cat (plusC isSpacePy)
     (Regex.cat (Regex.group 1 (plusC clsAlpha)) (Regex.cat (plusC isSpacePy) (strI "Card"))))]

def amexPeriodPats : List Regex :=
  [Regex.cat (strI "Statement Period") (Regex.cat (Regex.starG clsColSp)
     (Regex.group 1 (plusC clsPeriod))),
   Regex.cat (strI "Statement Summary") (Regex.cat (Regex.starG isSpacePy)
     (Regex.cat (strI "Period") (Regex.cat (Regex.starG clsColSp)
       (Regex.group 1 (plusC clsPeriod))))),
   Regex.cat (strI "For the period") (Regex.cat (Regex.starG clsColSp)
     (Regex.group 1 (plusC clsPeriod)))]

def amexDuePats : List Regex :=
  [Regex.cat (strI "Due Date") (Regex.cat (Regex.starG clsColSp)
     (Regex.group 1 (plusC clsDue))),
   Regex.cat (strI "Payment Due Date") (Regex.cat (Regex.starG clsColSp)
     (Regex.group 1 (plusC clsDue)))]

def amexAmountPats : List Regex :=
  [Regex.cat (strI "Amount Due") (Regex.cat (Regex.starG clsColSp)
     (Regex.cat (optC (chI '$')) (Regex.group 1 (plusC clsAmt)))),
   Regex.cat (strI "Total Amount Due") (Regex.cat (Regex.starG clsColSp)
     (Regex.cat (optC (chI '$')) (Regex.group 1 (plusC clsAmt)))),
   Regex.cat (strI "New Balance") (Regex.cat (Regex.starG clsColSp)
     (Regex.cat (optC (chI '$')) (Regex.group 1 (plusC clsAmt))))]

/-- `parse_amex` (src/app.py lines 59–84).  The four `find_first_regex`
fields are combined in one match; with a `Unit` error this is observably
the Python sequencing (any raising field makes the call raise). -/
def parse_amex (t : List Char) : Except Unit FieldRecord :=
  match fieldVal t amexVariantPats, fieldVal t amexPeriodPats,
        fieldVal t amexDuePats, fieldVal t amexAmountPats with
  | Except.ok v, Except.ok sp, Except.ok dd, Except.ok ad =>
    Except.ok { issuer := chars "American Express", last4 := amexLast4 t,
                card_variant := v, statement_period := sp.map normalize_spaces,
                due_date := dd.bind try_parse_date, amount_due := ad }
  | _, _, _, _ => Except.error ()

/-- `r'Account ending in[:\s]*?(\d{4})'` (line 90). -/
def reAccountEndingIn : Regex :=
  Regex.cat (strI "Account ending in") (Regex.cat (Regex.starL clsColSp) (Regex.group 1 dig4))

/-- Line 90–91: the chase last-4 value (`search(p1) or search(p2)`). -/
def chaseLast4 (t : List Char) : Option (List Char) :=
  match firstSome (reSearch reAccountEndingIn t) (reSearch reCardEndingIn t) with
  | some m => lookupCap 1 m.caps
  | none => none

def chaseVariantPats : List Regex :=
  [Regex.cat (Regex.group 1 (altL [strI "Sapphire", strI "Freedom", strI "Ink",
      strI "Slate", strI "Preferred", strI "Reserve", strI "Bold"]))
     (Regex.cat (plusC isSpacePy) (optC (altL [strI "Card", strI "Account", strI "Cardmember"]))),
   Regex.cat (strI "Chase") (Regex.cat (plusC isSpacePy)
     (Regex.cat (Regex.group 1 (plusC clsAlpha)) (Regex.cat (plusC isSpacePy) (strI "Card"))))]

def chasePeriodPats : List Regex :=
  [Regex.cat (strI "Statement Period") (Regex.cat (Regex.starG clsColSp)
     (Regex.group 1 (plusC clsPeriod))),
   Regex.cat (strI "For the period") (Regex.cat (Regex.starG clsColSp)
     (Regex.group 1 (plusC clsPeriod)))]

def chaseDuePats : List Regex :=
  [Regex.cat (strI "Payment Due Date") (Regex.cat (Regex.starG clsColSp)
     (Regex.group 1 (plusC clsDue))),
   Regex.cat (strI "Due Date") (Regex.cat (Regex.starG clsColSp)
     (Regex.group 1 (plusC clsDue)))]

def chaseAmountPats : List Regex :=
  [Regex.cat (strI "Total Amount Due") (Regex.cat (Regex.starG clsColSp)
     (Regex.cat (optC (chI '$')) (Regex.group 1 (plusC clsAmt)))),
   Regex.cat (strI "New Balance") (Regex.cat (Regex.starG clsColSp)
     (Regex.cat (optC (chI '$')) (Regex.group 1 (plusC clsAmt)))),
   Regex.cat (strI "Amount Due") (Regex.cat (Regex.starG clsColSp)
     (Regex.cat (optC (chI '$')) (Regex.group 1 (plusC clsAmt))))]

/-- `parse_chase` (src/app.py lines 86–109). -/
def parse_chase (t : List Char) : Except Unit FieldRecord :=
  match fieldVal t chaseVariantPats, fieldVal t chasePeriodPats,
        fieldVal t chaseDuePats, fieldVal t chaseAmountPats with
  | Except.ok v, Except.ok sp, Except.ok dd, Except.ok ad =>
    Except.ok { issuer := chars "Chase", last4 := chaseLast4 t,
                card_variant := v, statement_period := sp.map normalize_spaces,
                due_date := dd.bind try_parse_date, amount_due := ad }
  | _, _, _, _ => Except.error ()

/-- `r'ending in (\d{4})'` (literal space, line 115). -/
def reEndingInSp : Regex := Regex.cat (strI "ending in ") (Regex.group 1 dig4)

/-- Line 115–116: the citi last-4 value. -/
def citiLast4 (t : List Char) : Option (List Char) :=
  match firstSome (reSearch reCardEndingIn t) (reSearch reEndingInSp t) with
  | some m => lookupCap 1 m.caps
  | none => none

def citiVariantPats : List Regex :=
  [Regex.cat (Regex.group 1 (altL [strI "Premier", strI "Prestige", strI "Gold",
      strI "Platinum", strI "Custom", strI "Simplicity", strI "Double Cash", strI "Double"]))
     (Regex.cat (plusC isSpacePy) (strI "Card")),
   Regex.cat (strI "Citi") (Regex.cat (plusC isSpacePy)
     (Regex.cat (Regex.group 1 (plusC clsAlpha)) (Regex.cat (plusC isSpacePy) (strI "Card"))))]

def citiPeriodPats : List Regex :=
  [Regex.cat (strI "Statement Period") (Regex.cat (Regex.starG clsColSp)
     (Regex.group 1 (plusC clsPeriod))),
   Regex.cat (strI "Statement Date") (Regex.cat (Regex.starG clsColSp)
     (Regex.group 1 (plusC clsPeriod)))]

def citiDuePats : List Regex :=
  [Regex.cat (strI "Payment Due Date") (Regex.cat (Regex.starG clsColSp)
     (Regex.group 1 (plusC clsDue))),
   Regex.cat (strI "Due Date") (Regex.cat (Regex.starG clsColSp)
     (Regex.group 1 (plusC clsDue)))]

def citiAmountPats : List Regex :=
  [Regex.cat (strI "Total Amount Due") (Regex.cat (Regex.starG clsColSp)
     (Regex.cat (optC (chI '$')) (Regex.group 1 (plusC clsAmt)))),
   Regex.cat (strI "Amount due now") (Regex.cat (Regex.starG clsColSp)
     (Regex.cat (optC (chI '$')) (Regex.group 1 (plusC clsAmt)))),
   Regex.cat (strI "Current Due") (Regex.cat (Regex.starG clsColSp)
     (Regex.cat (optC (chI '$')) (Regex.group 1 (plusC clsAmt))))]

/-- `parse_citi` (src/app.py lines 111–134). -/
def parse_citi (t : List Char) : Except Unit FieldRecord :=
  match fieldVal t citiVariantPats, fieldVal t citiPeriodPats,
        fieldVal t citiDuePats, fieldVal t citiAmountPats with
  | Except.ok v, Except.ok sp, Except.ok dd, Except.ok ad =>
    Except.ok { issuer := chars "Citi", last4 := citiLast4 t,
                card_variant := v, statement_period := sp.map normalize_spaces,
                due_date := dd.bind try_parse_date, amount_due := ad }
  | _, _, _, _ => Except.error ()

/-- `r'Account Number[:\s]*\*+(\d{4})'` (line 140). -/
def reAccountNumberStars : Regex :=
  Regex.cat (strI "Account Number") (Regex.cat (Regex.starG clsColSp)
    (Regex.cat (plusC (fun c => c == '*')) (Regex.group 1 dig4)))

/-- Line 140–141: the bofa last-4 value. -/
def bofaLast4 (t : List Char) : Option (List Char) :=
  match firstSome (reSearch reAccountNumberStars t) (reSearch reEndingInSp t) with
  | some m => lookupCap 1 m.caps
  | none => none

def bofaVariantPats : List Regex :=
  [Regex.cat (Regex.group 1 (altL [strI "Preferred", strI "Platinum", strI "Cash Rewards",
      strI "Travel Rewards", strI "Customized Cash Rewards"]))
     (Regex.cat (plusC isSpacePy) (strI "Card")),
   Regex.cat (strI "Bank of America") (Regex.cat (plusC isSpacePy)
     (Regex.cat (Regex.group 1 (plusC clsAlpha)) (Regex.cat (plusC isSpacePy) (strI "Card"))))]

def bofaPeriodPats : List Regex :=
  [Regex.cat (strI "Statement Period") (Regex.cat (Regex.starG clsColSp)
     (Regex.group 1 (plusC clsPeriod))),
   Regex.cat (strI "Activity Period") (Regex.cat (Regex.starG clsColSp)
     (Regex.group 1 (plusC clsPeriod)))]

def bofaDuePats : List Regex :=
  [Regex.cat (strI "Payment Due Date") (Regex.cat (Regex.starG clsColSp)
     (Regex.group 1 (plusC clsDue))),
   Regex.cat (strI "Due Date") (Regex.cat (Regex.starG clsColSp)
     (Regex.group 1 (plusC clsDue)))]

def bofaAmountPats : List Regex :=
  [Regex.cat (strI "Total Due") (Regex.cat (Regex.starG clsColSp)
     (Regex.cat (optC (chI '$')) (Regex.group 1 (plusC clsAmt)))),
   Regex.cat (strI "Amount Due") (Regex.cat (Regex.starG clsColSp)
     (Regex.cat (optC (chI '$')) (Regex.group 1 (plusC clsAmt)))),
   Regex.cat (strI "Current Balance") (Regex.cat (Regex.starG clsColSp)
     (Regex.cat (optC (chI '$')) (Regex.group 1 (plusC clsAmt))))]

/-- `parse_bofa` (src/app.py lines 136–159). -/
def parse_bofa (t : List Char) : Except Unit FieldRecord :=
  match fieldVal t bofaVariantPats, fieldVal t bofaPeriodPats,
        fieldVal t bofaDuePats, fieldVal t bofaAmountPats with
  | Except.ok v, Except.ok sp, Except.ok dd, Except.ok ad =>
    Except.ok { issuer := chars "Bank of America", last4 := bofaLast4 t,
                card_variant := v, statement_period := sp.map normalize_spaces,
                due_date := dd.bind try_parse_date, amount_due := ad }
  | _, _, _, _ => Except.error ()

/-- `r'Card number[:\s]*\*+(\d{4})'` (line 165). -/
def reCardNumberStars : Regex :=
  Regex.cat (strI "Card number") (Regex.cat (Regex.starG clsColSp)
    (Regex.cat (plusC (fun c => c == '*')) (Regex.group 1 dig4)))

/-- `r'ending in[:\s]*(\d{4})'` (greedy star, line 165). -/
def reEndingInGreedy : Regex :=
  Regex.cat (strI "ending in") (Regex.cat (Regex.starG clsColSp) (Regex.group 1 dig4))

/-- Line 165–166: the hsbc last-4 value. -/
def hsbcLast4 (t : List Char) : Option (List Char) :=
  match firstSome (reSearch reCardNumberStars t) (reSearch reEndingInGreedy t) with
  | some m => lookupCap 1 m.caps
  | none => none

def hsbcVariantPats : List Regex :=
  [Regex.cat (Regex.group 1 (altL [strI "Premier", strI "Advance", strI "Platinum",
      strI "Gold", strI "Red"]))
     (Regex.cat (plusC isSpacePy) (strI "Card")),
   Regex.cat (strI "HSBC") (Regex.cat (plusC isSpacePy)
     (Regex.cat (Regex.group 1 (plusC clsAlpha)) (Regex.cat (plusC isSpacePy) (strI "Card"))))]

def hsbcPeriodPats : List Regex :=
  [Regex.cat (strI "Statement Period") (Regex.cat (Regex.starG clsColSp)
     (Regex.group 1 (plusC clsPeriod))),
   Regex.cat (strI "Account summary for the period") (Regex.cat (Regex.starG clsColSp)
     (Regex.group 1 (plusC clsPeriod)))]

def hsbcDuePats : List Regex :=
  [Regex.cat (strI "Due Date") (Regex.cat (Regex.starG clsColSp)
     (Regex.group 1 (plusC clsDue))),
   Regex.cat (strI "Payment Due Date") (Regex.cat (Regex.starG clsColSp)
     (Regex.group 1 (plusC clsDue)))]

def hsbcAmountPats : List Regex :=
  [Regex.cat (strI "Total Amount Due") (Regex.cat (Regex.starG clsColSp)
     (Regex.cat (optC (chI '$')) (Regex.group 1 (plusC clsAmt)))),
   Regex.cat (strI "Amount Due") (Regex.cat (Regex.starG clsColSp)
     (Regex.cat (optC (chI '$')) (Regex.group 1 (plusC clsAmt)))),
   Regex.cat (strI "Total due") (Regex.cat (Regex.starG clsColSp)
     (Regex.cat (optC (chI '$')) (Regex.group 1 (plusC clsAmt))))]

/-- `parse_hsbc` (src/app.py lines 161–184). -/
def parse_hsbc (t : List Char) : Except Unit FieldRecord :=
  match fieldVal t hsbcVariantPats, fieldVal t hsbcPeriodPats,
        fieldVal t hsbcDuePats, fieldVal t hsbcAmountPats with
  | Except.ok v, Except.ok sp, Except.ok dd, Except.ok ad =>
    Except.ok { issuer := chars "HSBC", last4 := hsbcLast4 t,
                card_variant := v, statement_period := sp.map normalize_spaces,
                due_date := dd.bind try_parse_date, amount_due := ad }
  | _, _, _, _ => Except.error ()

/-- `r'Card\s+ending[:\s]*?(\d{4})'` (line 194). -/
def reCardWsEnding : Regex :=
  Regex.cat (strI "Card") (Regex.cat (plusC isSpacePy)
    (Regex.cat (strI "ending") (Regex.cat (Regex.starL clsColSp) (Regex.group 1 dig4))))

def genericLast4Pats : List Regex :=
  [reEndingInLazy, reAccountNumberStars, reCardWsEnding]

def genericVariantPats : List Regex :=
  [Regex.cat (Regex.group 1 (altL [strI "Platinum", strI "Gold", strI "Silver",
      strI "Classic", strI "Cashback", strI "Rewards", strI "Signature", strI "Infinite"]))
     (Regex.cat (plusC isSpacePy) (altL [strI "Card", strI "Account"])),
   Regex.cat (strI "Card Type") (Regex.cat (Regex.starG clsColSp)
     (Regex.group 1 (plusC clsAlnumSp)))]

def genericPeriodPats : List Regex :=
  [Regex.cat (Regex.group 1 (altL [strI "Statement Period", strI "Statement Date",
      strI "For the period"]))
     (Regex.cat (Regex.starG clsColSp) (Regex.group 2 (plusC clsPeriod))),
   Regex.cat (strI "For the period") (Regex.cat (Regex.starG clsColSp)
     (Regex.group 1 (plusC clsPeriod)))]

def genericDuePats : List Regex :=
  [Regex.cat (Regex.group 1 (altL [strI "Payment Due Date", strI "Due Date"]))
     (Regex.cat (Regex.starG clsColSp) (Regex.group 2 (plusC clsDue)))]

def genericAmountPats : List Regex :=
  [Regex.cat (Regex.group 1 (altL [strI "Total Amount Due", strI "Amount Due",
      strI "New Balance", strI "Current Balance"]))
     (Regex.cat (Regex.starG clsColSp) (Regex.cat (optC (chI '$'))
       (Regex.group 2 (plusC clsAmt))))]

/-- `parse_generic` (src/app.py lines 190–209). -/
def parse_generic (t : List Char) : Except Unit FieldRecord :=
  match fieldVal t genericLast4Pats, fieldVal t genericVariantPats,
        fieldVal t genericPeriodPats, fieldVal t genericDuePats,
        fieldVal t genericAmountPats with
  | Except.ok l4, Except.ok v, Except.ok sp, Except.ok dd, Except.ok ad =>
    Except.ok { issuer := chars "Unknown", last4 := l4,
                card_variant := v, statement_period := sp.map normalize_spaces,
                due_date := dd.bind try_parse_date, amount_due := ad }
  | _, _, _, _, _ => Except.error ()

/-- `parse_statement` (src/app.py lines 229–248) from the point where the
external text-extraction collaborator has produced the raw text (the spec
treats the PDF step as a black box that may return empty text).  Returns
the field record together with the `raw_sample_snippet`. -/
def parse_statement_from_text (text : List Char) : Except Unit (FieldRecord × List Char) :=
  let text_norm := normalize_spaces text
  let issuer := detect_issuer text_norm
  let result :=
    if issuer = chars "American Express" then parse_amex text_norm
    else if issuer = chars "Chase" then parse_chase text_norm
    else if issuer = chars "Citi" then parse_citi text_norm
    else if issuer = chars "Bank of America" then parse_bofa text_norm
    else if issuer = chars "HSBC" then parse_hsbc text_norm
    else parse_generic text_norm
  match result with
  | Except.ok r => Except.ok (r, text_norm.take 1200)
  | Except.error e => Except.error e

/-!  ### Semantic layer for the matcher

`Lang r u`: the word `u` is in the language of `r` (captures ignored).
`CapIn r n d`: the pattern `r` can record `d` as a capture of group `n`. -/

inductive Lang : Regex → List Char → Prop where
  | eps : Lang Regex.eps []
  | pred {p : Char → Bool} {c : Char} : p c = true → Lang (Regex.pred p) [c]
  | cat {a b : Regex} {u v : List Char} :
      Lang a u → Lang b v → Lang (Regex.cat a b) (u ++ v)
  | altL {a b : Regex} {u : List Char} : Lang a u → Lang (Regex.alt a b) u
  | altR {a b : Regex} {u : List Char} : Lang b u → Lang (Regex.alt a b) u
  | starG {p : Char → Bool} {u : List Char} :
      (∀ c ∈ u, p c = true) → Lang (Regex.starG p) u
  | starL {p : Char → Bool} {u : List Char} :
      (∀ c ∈ u, p c = true) → Lang (Regex.starL p) u
  | group {n : Nat} {a : Regex} {u : List Char} : Lang a u → Lang (Regex.group n a) u

inductive CapIn : Regex → Nat → List Char → Prop where
  | here {n : Nat} {a : Regex} {d : List Char} : Lang a d → CapIn (Regex.group n a) n d
  | inner {n m : Nat} {a : Regex} {d : List Char} :
      CapIn a m d → CapIn (Regex.group n a) m d
  | catL {a b : Regex} {n : Nat} {d : List Char} : CapIn a n d → CapIn (Regex.cat a b) n d
  | catR {a b : Regex} {n : Nat} {d : List Char} : CapIn b n d → CapIn (Regex.cat a b) n d
  | altL {a b : Regex} {n : Nat} {d : List Char} : CapIn a n d → CapIn (Regex.alt a b) n d
  | altR {a b : Regex} {n : Nat} {d : List Char} : CapIn b n d → CapIn (Regex.alt a b) n d

/-!  ### Spec-side vocabulary for the normalization claim -/

/-- The maximal non-whitespace runs of a text, in order (spec wording:
the content separated by the maximal whitespace runs). -/
def wsWords : List Char → List (List Char)
  | [] => []
  | c :: rest =>
    if isSpacePy c then wsWords rest
    else (c :: rest.takeWhile (fun x => !isSpacePy x)) ::
      wsWords (rest.dropWhile (fun x => !isSpacePy x))
termination_by l => l.length
decreasing_by
  · simp_all
  · simp only [List.length_cons]
    exact Nat.lt_succ_of_le (List.dropWhile_sublist (fun x => !isSpacePy x)).length_le

/-- Join words with single spaces (spec wording: every maximal whitespace
run becomes a single space, no leading or trailing space). -/
def joinWords : List (List Char) → List Char
  | [] => []
  | [w] => w
  | w :: x :: xs => w ++ ' ' :: joinWords (x :: xs)

/-!  ## Lemmas about the matcher -/

theorem greedyStar_sound {p : Char → Bool} :
    ∀ (s : List Char) (caps : Caps) (k : List Char → Caps → Option (Caps × List Char))
      (res : Caps × List Char),
      greedyStar p s caps k = some res →
      ∃ u s1, s = u ++ s1 ∧ (∀ c ∈ u, p c = true) ∧ k s1 caps = some res := by
  intro s
  induction s with
  | nil =>
    intro caps k res h
    exact ⟨[], [], rfl, by simp, h⟩
  | cons c rest ih =>
    intro caps k res h
    simp only [greedyStar] at h
    by_cases hp : p c
    · rw [if_pos hp] at h
      cases hg : greedyStar p rest caps k with
      | some r2 =>
        rw [hg] at h
        cases h
        obtain ⟨u, s1, he, hall, hk⟩ := ih caps k res hg
        refine ⟨c :: u, s1, by simp [he], ?_, hk⟩
        intro x hx
        rcases List.mem_cons.mp hx with rfl | hx
        · exact hp
        · exact hall x hx
      | none =>
        rw [hg] at h
        exact ⟨[], c :: rest, rfl, by simp, h⟩
    · rw [if_neg hp] at h
      exact ⟨[], c :: rest, rfl, by simp, h⟩

theorem lazyStar_sound {p : Char → Bool} :
    ∀ (s : List Char) (caps : Caps) (k : List Char → Caps → Option (Caps × List Char))
      (res : Caps × List Char),
      lazyStar p s caps k = some res →
      ∃ u s1, s = u ++ s1 ∧ (∀ c ∈ u, p c = true) ∧ k s1 caps = some res := by
  intro s
  induction s with
  | nil =>
    intro caps k res h
    exact ⟨[], [], rfl, by simp, h⟩
  | cons c rest ih =>
    intro caps k res h
    simp only [lazyStar] at h
    cases hk : k (c :: rest) caps with
    | some r2 =>
      rw [hk] at h
      cases h
      exact ⟨[], c :: rest, rfl, by simp, hk⟩
    | none =>
      rw [hk] at h
      by_cases hp : p c
      · rw [if_pos hp] at h
        obtain ⟨u, s1, he, hall, hk2⟩ := ih caps k res h
        refine ⟨c :: u, s1, by simp [he], ?_, hk2⟩
        intro x hx
        rcases List.mem_cons.mp hx with rfl | hx
        · exact hp
        · exact hall x hx
      · rw [if_neg hp] at h
        cases h

theorem take_append_cancel (u s1 : List Char) :
    (u ++ s1).take ((u ++ s1).length - s1.length) = u := by
  simp [List.length_append]

/-- Soundness of the continuation matcher: a success decomposes the input
into a word of the pattern's language and a remainder handed to the
continuation, the new captures all come from capture groups of the pattern,
and a pattern whose every match records group 1 does record it. -/
theorem matchCPS_sound :
    ∀ (r : Regex) (s : List Char) (caps : Caps)
      (k : List Char → Caps → Option (Caps × List Char)) (res : Caps × List Char),
      matchCPS r s caps k = some res →
      ∃ u s1 cnew, s = u ++ s1 ∧ Lang r u ∧
        (∀ q ∈ cnew, CapIn r q.1 q.2) ∧
        (mandatory1 r = true → ∃ d, (1, d) ∈ cnew) ∧
        k s1 (cnew ++ caps) = some res := by
  intro r
  induction r with
  | eps =>
    intro s caps k res h
    exact ⟨[], s, [], rfl, Lang.eps, by simp, by simp [mandatory1], h⟩
  | pred p =>
    intro s caps k res h
    cases s with
    | nil => simp [matchCPS] at h
    | cons c rest =>
      simp only [matchCPS] at h
      by_cases hp : p c
      · rw [if_pos hp] at h
        exact ⟨[c], rest, [], rfl, Lang.pred hp, by simp, by simp [mandatory1], h⟩
      · rw [if_neg hp] at h
        cases h
  | cat a b iha ihb =>
    intro s caps k res h
    simp only [matchCPS] at h
    obtain ⟨u1, s1, n1, hs1, hl1, hc1, hm1, hk1⟩ := iha s caps _ res h
    obtain ⟨u2, s2, n2, hs2, hl2, hc2, hm2, hk2⟩ := ihb s1 (n1 ++ caps) k res hk1
    refine ⟨u1 ++ u2, s2, n2 ++ n1, ?_, Lang.cat hl1 hl2, ?_, ?_, ?_⟩
    · rw [hs1, hs2, List.append_assoc]
    · intro q hq
      rcases List.mem_append.mp hq with hq | hq
      · exact CapIn.catR (hc2 q hq)
      · exact CapIn.catL (hc1 q hq)
    · intro hm
      rcases Bool.or_eq_true_iff.mp (by simpa [mandatory1] using hm) with hma | hmb
      · obtain ⟨d, hd⟩ := hm1 hma
        exact ⟨d, List.mem_append.mpr (Or.inr hd)⟩
      · obtain ⟨d, hd⟩ := hm2 hmb
        exact ⟨d, List.mem_append.mpr (Or.inl hd)⟩
    · rw [List.append_assoc]
      exact hk2
  | alt a b iha ihb =>
    intro s caps k res h
    simp only [matchCPS] at h
    cases ha : matchCPS a s caps k with
    | some r2 =>
      rw [ha] at h
      cases h
      obtain ⟨u, s1, n1, hs1, hl, hc, hm, hk⟩ := iha s caps k res ha
      refine ⟨u, s1, n1, hs1, Lang.altL hl, fun q hq => CapIn.altL (hc q hq), ?_, hk⟩
      intro hmand
      exact hm (Bool.and_eq_true_iff.mp (by simpa [mandatory1] using hmand)).1
    | none =>
      rw [ha] at h
      obtain ⟨u, s1, n1, hs1, hl, hc, hm, hk⟩ := ihb s caps k res h
      refine ⟨u, s1, n1, hs1, Lang.altR hl, fun q hq => CapIn.altR (hc q hq), ?_, hk⟩
      intro hmand
      exact hm (Bool.and_eq_true_iff.mp (by simpa [mandatory1] using hmand)).2
  | starG p =>
    intro s caps k res h
    simp only [matchCPS] at h
    obtain ⟨u, s1, he, hall, hk⟩ := greedyStar_sound s caps k res h
    exact ⟨u, s1, [], he, Lang.starG hall, by simp, by simp [mandatory1], hk⟩
  | starL p =>
    intro s caps k res h
    simp only [matchCPS] at h
    obtain ⟨u, s1, he, hall, hk⟩ := lazyStar_sound s caps k res h
    exact ⟨u, s1, [], he, Lang.starL hall, by simp, by simp [mandatory1], hk⟩
  | group n a iha =>
    intro s caps k res h
    simp only [matchCPS] at h
    obtain ⟨u, s1, n1, hs1, hl, hc, hm, hk⟩ := iha s caps _ res h
    rw [hs1, take_append_cancel] at hk
    refine ⟨u, s1, (n, u) :: n1, hs1, Lang.group hl, ?_, ?_, hk⟩
    · intro q hq
      rcases List.mem_cons.mp hq with rfl | hq
      · exact CapIn.here hl
      · exact CapIn.inner (hc q hq)
    · intro hmand
      have hmand2 : n = 1 ∨ mandatory1 a = true := by simpa [mandatory1] using hmand
      rcases hmand2 with hn | hma
      · refine ⟨u, ?_⟩
        rw [hn]
        exact List.mem_cons_self _ _
      · obtain ⟨d, hd⟩ := hm hma
        exact ⟨d, List.mem_cons_of_mem _ hd⟩

/-- Soundness transported to `reSearch`: the whole match is in the
pattern's language, every recorded capture comes from a group of the
pattern, and a group-1-mandatory pattern records group 1. -/
theorem reSearchAux_sound {r : Regex} :
    ∀ {t : List Char} {m : MatchRes}, reSearchAux r t = some m →
      Lang r m.whole ∧ (∀ q ∈ m.caps, CapIn r q.1 q.2) ∧
      (mandatory1 r = true → ∃ d, (1, d) ∈ m.caps) := by
  intro t
  induction t with
  | nil =>
    intro m h
    simp only [reSearchAux] at h
    cases hc : matchCPS r [] [] searchK with
    | some pr =>
      rw [hc] at h
      obtain ⟨u, s1, cnew, hs, hl, hcap, hm, hk⟩ := matchCPS_sound r [] [] searchK pr hc
      simp only [searchK] at hk
      cases h
      cases hk
      constructor
      · show Lang r (MatchRes.whole _)
        simp only [MatchRes.whole]
        rw [hs, take_append_cancel]
        exact hl
      · constructor
        · intro q hq
          exact hcap q (by simpa using hq)
        · intro hmand
          obtain ⟨d, hd⟩ := hm hmand
          exact ⟨d, by simpa using hd⟩
    | none => rw [hc] at h; cases h
  | cons c rest ih =>
    intro m h
    simp only [reSearchAux] at h
    cases hc : matchCPS r (c :: rest) [] searchK with
    | some pr =>
      rw [hc] at h
      obtain ⟨u, s1, cnew, hs, hl, hcap, hm, hk⟩ := matchCPS_sound r (c :: rest) [] searchK pr hc
      simp only [searchK] at hk
      cases h
      cases hk
      constructor
      · show Lang r (MatchRes.whole _)
        simp only [MatchRes.whole]
        rw [hs, take_append_cancel]
        exact hl
      · constructor
        · intro q hq
          exact hcap q (by simpa using hq)
        · intro hmand
          obtain ⟨d, hd⟩ := hm hmand
          exact ⟨d, by simpa using hd⟩
    | none =>
      rw [hc] at h
      exact ih h

theorem reSearch_sound {r : Regex} {t : List Char} {m : MatchRes}
    (h : reSearch r t = some m) :
    Lang r m.whole ∧ (∀ q ∈ m.caps, CapIn r q.1 q.2) ∧
    (mandatory1 r = true → ∃ d, (1, d) ∈ m.caps) :=
  reSearchAux_sound h

theorem lookupCap_mem {n : Nat} {g : List Char} :
    ∀ {caps : Caps}, lookupCap n caps = some g → (n, g) ∈ caps := by
  intro caps
  induction caps with
  | nil => intro h; cases h
  | cons q rest ih =>
    obtain ⟨a, b⟩ := q
    intro h
    simp only [lookupCap] at h
    by_cases hq : a = n
    · rw [if_pos hq] at h
      cases h
      rw [hq]
      exact List.mem_cons_self _ _
    · rw [if_neg hq] at h
      exact List.mem_cons_of_mem _ (ih h)

theorem lookupCap_isSome_of_mem {n : Nat} {d : List Char} :
    ∀ {caps : Caps}, (n, d) ∈ caps → (lookupCap n caps).isSome = true := by
  intro caps
  induction caps with
  | nil => intro h; cases h
  | cons q rest ih =>
    intro h
    simp only [lookupCap]
    by_cases hq : q.1 = n
    · rw [if_pos hq]; rfl
    · rw [if_neg hq]
      rcases List.mem_cons.mp h with rfl | h
    <;> first
      | exact absurd rfl hq
      | exact ih h

/-- A pattern without capture groups records no capture. -/
theorem noCapIn {r : Regex} (hg : hasGroup r = false) {n : Nat} {d : List Char} :
    ¬ CapIn r n d := by
  intro h
  induction h with
  | here _ => simp [hasGroup] at hg
  | inner _ ih => simp [hasGroup] at hg
  | catL _ ih => exact ih (by simp [hasGroup] at hg; exact hg.1)
  | catR _ ih => exact ih (by simp [hasGroup] at hg; exact hg.2)
  | altL _ ih => exact ih (by simp [hasGroup] at hg; exact hg.1)
  | altR _ ih => exact ih (by simp [hasGroup] at hg; exact hg.2)

theorem hasGroup_foldr_chI : ∀ l : List Char,
    hasGroup (l.foldr (fun c r => Regex.cat (chI c) r) Regex.eps) = false := by
  intro l
  induction l with
  | nil => rfl
  | cons c rest ih =>
    show (hasGroup (chI c) ||
      hasGroup (rest.foldr (fun c r => Regex.cat (chI c) r) Regex.eps)) = false
    rw [ih]
    rfl

theorem hasGroup_strI (s : String) : hasGroup (strI s) = false :=
  hasGroup_foldr_chI (chars s)

theorem capIn_catNoG {a b : Regex} (ha : hasGroup a = false) {n : Nat} {d : List Char}
    (h : CapIn (Regex.cat a b) n d) : CapIn b n d := by
  cases h with
  | catL h => exact absurd h (noCapIn ha)
  | catR h => exact h

/-- Words of `\d{4}` are exactly four decimal digits. -/
theorem lang_dig4 {d : List Char} (h : Lang dig4 d) :
    d.length = 4 ∧ d.all isDigitPy = true := by
  simp only [dig4] at h
  cases h with
  | cat h1 h2 =>
    cases h1 with
    | pred hp1 =>
      cases h2 with
      | cat h2 h3 =>
        cases h2 with
        | pred hp2 =>
          cases h3 with
          | cat h3 h4 =>
            cases h3 with
            | pred hp3 =>
              cases h4 with
              | pred hp4 => simp [hp1, hp2, hp3, hp4]

/-- A group-1 capture of `(\d{4})` is four decimal digits. -/
theorem capIn_g1dig4 {d : List Char} (h : CapIn (Regex.group 1 dig4) 1 d) :
    d.length = 4 ∧ d.all isDigitPy = true := by
  cases h with
  | here h => exact lang_dig4 h
  | inner h => exact absurd h (noCapIn (by rfl))

theorem capIn_reCardEndingIn {d : List Char} (h : CapIn reCardEndingIn 1 d) :
    d.length = 4 ∧ d.all isDigitPy = true :=
  capIn_g1dig4 (capIn_catNoG (by rfl) (capIn_catNoG (hasGroup_strI _) h))

theorem capIn_reEndingInLazy {d : List Char} (h : CapIn reEndingInLazy 1 d) :
    d.length = 4 ∧ d.all isDigitPy = true :=
  capIn_g1dig4 (capIn_catNoG (by rfl) (capIn_catNoG (hasGroup_strI _) h))

theorem capIn_reEndingInGreedy {d : List Char} (h : CapIn reEndingInGreedy 1 d) :
    d.length = 4 ∧ d.all isDigitPy = true :=
  capIn_g1dig4 (capIn_catNoG (by rfl) (capIn_catNoG (hasGroup_strI _) h))

theorem capIn_reAccountEndingIn {d : List Char} (h : CapIn reAccountEndingIn 1 d) :
    d.length = 4 ∧ d.all isDigitPy = true :=
  capIn_g1dig4 (capIn_catNoG (by rfl) (capIn_catNoG (hasGroup_strI _) h))

theorem capIn_reEndingInSp {d : List Char} (h : CapIn reEndingInSp 1 d) :
    d.length = 4 ∧ d.all isDigitPy = true :=
  capIn_g1dig4 (capIn_catNoG (hasGroup_strI _) h)

theorem capIn_reAccountNumberStars {d : List Char} (h : CapIn reAccountNumberStars 1 d) :
    d.length = 4 ∧ d.all isDigitPy = true :=
  capIn_g1dig4 (capIn_catNoG (by rfl)
    (capIn_catNoG (by rfl) (capIn_catNoG (hasGroup_strI _) h)))

theorem capIn_reCardNumberStars {d : List Char} (h : CapIn reCardNumberStars 1 d) :
    d.length = 4 ∧ d.all isDigitPy = true :=
  capIn_g1dig4 (capIn_catNoG (by rfl)
    (capIn_catNoG (by rfl) (capIn_catNoG (hasGroup_strI _) h)))

theorem capIn_reCardWsEnding {d : List Char} (h : CapIn reCardWsEnding 1 d) :
    d.length = 4 ∧ d.all isDigitPy = true :=
  capIn_g1dig4 (capIn_catNoG (by rfl) (capIn_catNoG (hasGroup_strI _)
    (capIn_catNoG (by rfl) (capIn_catNoG (hasGroup_strI _) h))))

theorem capIn_reAmexLast4A {d : List Char} (h : CapIn reAmexLast4A 1 d) :
    d.length = 4 ∧ d.all isDigitPy = true := by
  cases h with
  | altL h =>
    exact absurd h (noCapIn (by simp [hasGroup, dotNoNL, hasGroup_strI]))
  | altR h => exact capIn_reCardEndingIn h

/-!  ## Lemmas about stripping and digits -/

theorem isDigitPy_not_space {c : Char} (h : isDigitPy c = true) : isSpacePy c = false := by
  simp only [isDigitPy, decide_eq_true_eq] at h
  simp only [isSpacePy, decide_eq_false_iff_not]
  omega

theorem dropWhile_of_none {p : Char → Bool} :
    ∀ {l : List Char}, (∀ c ∈ l, p c = false) → l.dropWhile p = l := by
  intro l
  induction l with
  | nil => intro _; rfl
  | cons c rest ih =>
    intro h
    rw [List.dropWhile_cons_of_neg]
    simp [h c (List.mem_cons_self c rest)]

theorem stripL_of_no_ws {l : List Char} (h : ∀ c ∈ l, isSpacePy c = false) :
    stripL l = l := by
  unfold stripL dropTrailWs
  rw [dropWhile_of_none h]
  rw [dropWhile_of_none (fun c hc => h c (List.mem_reverse.mp hc))]
  exact List.reverse_reverse l

theorem stripL_all_digits {l : List Char} (h : l.all isDigitPy = true) :
    stripL l = l :=
  stripL_of_no_ws (fun c hc => isDigitPy_not_space (List.all_eq_true.mp h c hc))

/-!  ## Lemmas about find_first_regex -/

theorem find_first_ok_some :
    ∀ {ps : List Regex} {t : List Char} {p : Regex} {v : List Char},
      find_first_regex t ps = Except.ok (some (p, v)) →
      p ∈ ps ∧ ∃ m, reSearch p t = some m ∧
        ((hasGroup p = true ∧ ∃ g, lookupCap 1 m.caps = some g ∧ v = stripL g) ∨
         (hasGroup p = false ∧ v = stripL m.whole)) := by
  intro ps
  induction ps with
  | nil => intro t p v h; cases h
  | cons q rest ih =>
    intro t p v h
    simp only [find_first_regex] at h
    cases hs : reSearch q t with
    | some m =>
      simp only [hs] at h
      by_cases hg : hasGroup q = true
      · rw [if_pos hg] at h
        cases hl : lookupCap 1 m.caps with
        | some g =>
          simp only [hl] at h
          cases h
          exact ⟨List.mem_cons_self _ _, m, hs, Or.inl ⟨hg, g, hl, rfl⟩⟩
        | none => simp only [hl] at h; cases h
      · rw [if_neg hg] at h
        cases h
        exact ⟨List.mem_cons_self _ _, m, hs,
          Or.inr ⟨eq_false_of_ne_true hg, rfl⟩⟩
    | none =>
      simp only [hs] at h
      obtain ⟨hmem, hrest⟩ := ih h
      exact ⟨List.mem_cons_of_mem _ hmem, hrest⟩

theorem find_first_ok_none_iff :
    ∀ {ps : List Regex} {t : List Char},
      find_first_regex t ps = Except.ok none ↔ ∀ p ∈ ps, reSearch p t = none := by
  intro ps
  induction ps with
  | nil => intro t; simp [find_first_regex]
  | cons q rest ih =>
    intro t
    constructor
    · intro h
      simp only [find_first_regex] at h
      cases hs : reSearch q t with
      | some m =>
        simp only [hs] at h
        by_cases hg : hasGroup q = true
        · rw [if_pos hg] at h
          cases hl : lookupCap 1 m.caps with
          | some g => simp only [hl] at h; cases h
          | none => simp only [hl] at h; cases h
        · rw [if_neg hg] at h; cases h
      | none =>
        simp only [hs] at h
        intro p hp
        rcases List.mem_cons.mp hp with rfl | hp
        · exact hs
        · exact ih.mp h p hp
    · intro h
      simp only [find_first_regex]
      simp only [h q (List.mem_cons_self _ _)]
      exact ih.mpr (fun p hp => h p (List.mem_cons_of_mem _ hp))

theorem find_first_no_error :
    ∀ {ps : List Regex} {t : List Char},
      (∀ p ∈ ps, hasGroup p = false ∨ mandatory1 p = true) →
      ∃ o, find_first_regex t ps = Except.ok o := by
  intro ps
  induction ps with
  | nil => intro t _; exact ⟨none, rfl⟩
  | cons q rest ih =>
    intro t hcond
    simp only [find_first_regex]
    cases hs : reSearch q t with
    | some m =>
      simp only [hs]
      by_cases hg : hasGroup q = true
      · rw [if_pos hg]
        rcases hcond q (List.mem_cons_self _ _) with hq | hq
        · rw [hq] at hg; cases hg
        · obtain ⟨d, hd⟩ := (reSearch_sound hs).2.2 hq
          cases hl : lookupCap 1 m.caps with
          | some g => simp only [hl]; exact ⟨some (q, stripL g), rfl⟩
          | none =>
            have := lookupCap_isSome_of_mem hd
            rw [hl] at this
            cases this
      · rw [if_neg hg]
        exact ⟨some (q, stripL m.whole), rfl⟩
    | none =>
      simp only [hs]
      exact ih (fun p hp => hcond p (List.mem_cons_of_mem _ hp))

theorem fieldVal_ok {t : List Char} {pats : List Regex}
    (hcond : ∀ p ∈ pats, hasGroup p = false ∨ mandatory1 p = true) :
    ∃ o, fieldVal t pats = Except.ok o := by
  obtain ⟨o, ho⟩ := find_first_no_error hcond
  unfold fieldVal
  rw [ho]
  cases o with
  | none => exact ⟨none, rfl⟩
  | some pv => exact ⟨some pv.2, rfl⟩

theorem fieldVal_ok_some {t : List Char} {pats : List Regex} {v : List Char}
    (h : fieldVal t pats = Except.ok (some v)) :
    ∃ p, p ∈ pats ∧ ∃ m, reSearch p t = some m ∧
      ((hasGroup p = true ∧ ∃ g, lookupCap 1 m.caps = some g ∧ v = stripL g) ∨
       (hasGroup p = false ∧ v = stripL m.whole)) := by
  unfold fieldVal at h
  cases hf : find_first_regex t pats with
  | error e => rw [hf] at h; cases h
  | ok o =>
    rw [hf] at h
    cases o with
    | none => cases h
    | some pv =>
      cases h
      obtain ⟨hmem, hrest⟩ := find_first_ok_some hf
      exact ⟨pv.1, hmem, hrest⟩

/-!  ## The last-4 values of the parsers are four-digit captures -/

theorem amexLast4_digits {t g : List Char} (h : amexLast4 t = some g) :
    g.length = 4 ∧ g.all isDigitPy = true := by
  unfold amexLast4 at h
  cases h1 : reSearch reAmexLast4A t with
  | some m =>
    simp only [h1] at h
    rw [if_pos (by rfl : hasGroup reAmexLast4A = true)] at h
    exact capIn_reAmexLast4A ((reSearch_sound h1).2.1 (1, g) (lookupCap_mem h))
  | none =>
    simp only [h1] at h
    cases h2 : reSearch reEndingInLazy t with
    | some m =>
      simp only [h2] at h
      rw [if_pos (by rfl : hasGroup reEndingInLazy = true)] at h
      exact capIn_reEndingInLazy ((reSearch_sound h2).2.1 (1, g) (lookupCap_mem h))
    | none => simp only [h2] at h; cases h

theorem chaseLast4_digits {t g : List Char} (h : chaseLast4 t = some g) :
    g.length = 4 ∧ g.all isDigitPy = true := by
  unfold chaseLast4 firstSome at h
  cases h1 : reSearch reAccountEndingIn t with
  | some m =>
    simp only [h1] at h
    exact capIn_reAccountEndingIn ((reSearch_sound h1).2.1 (1, g) (lookupCap_mem h))
  | none =>
    simp only [h1] at h
    cases h2 : reSearch reCardEndingIn t with
    | some m =>
      simp only [h2] at h
      exact capIn_reCardEndingIn ((reSearch_sound h2).2.1 (1, g) (lookupCap_mem h))
    | none => simp only [h2] at h; cases h

theorem citiLast4_digits {t g : List Char} (h : citiLast4 t = some g) :
    g.length = 4 ∧ g.all isDigitPy = true := by
  unfold citiLast4 firstSome at h
  cases h1 : reSearch reCardEndingIn t with
  | some m =>
    simp only [h1] at h
    exact capIn_reCardEndingIn ((reSearch_sound h1).2.1 (1, g) (lookupCap_mem h))
  | none =>
    simp only [h1] at h
    cases h2 : reSearch reEndingInSp t with
    | some m =>
      simp only [h2] at h
      exact capIn_reEndingInSp ((reSearch_sound h2).2.1 (1, g) (lookupCap_mem h))
    | none => simp only [h2] at h; cases h

theorem bofaLast4_digits {t g : List Char} (h : bofaLast4 t = some g) :
    g.length = 4 ∧ g.all isDigitPy = true := by
  unfold bofaLast4 firstSome at h
  cases h1 : reSearch reAccountNumberStars t with
  | some m =>
    simp only [h1] at h
    exact capIn_reAccountNumberStars ((reSearch_sound h1).2.1 (1, g) (lookupCap_mem h))
  | none =>
    simp only [h1] at h
    cases h2 : reSearch reEndingInSp t with
    | some m =>
      simp only [h2] at h
      exact capIn_reEndingInSp ((reSearch_sound h2).2.1 (1, g) (lookupCap_mem h))
    | none => simp only [h2] at h; cases h

theorem hsbcLast4_digits {t g : List Char} (h : hsbcLast4 t = some g) :
    g.length = 4 ∧ g.all isDigitPy = true := by
  unfold hsbcLast4 firstSome at h
  cases h1 : reSearch reCardNumberStars t with
  | some m =>
    simp only [h1] at h
    exact capIn_reCardNumberStars ((reSearch_sound h1).2.1 (1, g) (lookupCap_mem h))
  | none =>
    simp only [h1] at h
    cases h2 : reSearch reEndingInGreedy t with
    | some m =>
      simp only [h2] at h
      exact capIn_reEndingInGreedy ((reSearch_sound h2).2.1 (1, g) (lookupCap_mem h))
    | none => simp only [h2] at h; cases h

theorem genericLast4_digits {t g : List Char}
    (h : fieldVal t genericLast4Pats = Except.ok (some g)) :
    g.length = 4 ∧ g.all isDigitPy = true := by
  obtain ⟨p, hmem, m, hs, hcase⟩ := fieldVal_ok_some h
  have hdig : ∀ g0, CapIn p 1 g0 → g0.length = 4 ∧ g0.all isDigitPy = true := by
    simp only [genericLast4Pats, List.mem_cons, List.not_mem_nil, or_false] at hmem
    rcases hmem with rfl | rfl | rfl
    · exact fun g0 hc => capIn_reEndingInLazy hc
    · exact fun g0 hc => capIn_reAccountNumberStars hc
    · exact fun g0 hc => capIn_reCardWsEnding hc
  rcases hcase with ⟨_, g0, hl, rfl⟩ | ⟨hgf, _⟩
  · have hd := hdig g0 ((reSearch_sound hs).2.1 (1, g0) (lookupCap_mem hl))
    rw [stripL_all_digits hd.2]
    exact hd
  · exfalso
    simp only [genericLast4Pats, List.mem_cons, List.not_mem_nil, or_false] at hmem
    rcases hmem with rfl | rfl | rfl <;> exact absurd hgf (by decide)

/-!  ## Projection lemmas for the parsers -/

theorem parse_amex_last4 {t : List Char} {r : FieldRecord}
    (h : parse_amex t = Except.ok r) : r.last4 = amexLast4 t := by
  unfold parse_amex at h
  split at h
  · cases h; rfl
  · cases h

theorem parse_chase_last4 {t : List Char} {r : FieldRecord}
    (h : parse_chase t = Except.ok r) : r.last4 = chaseLast4 t := by
  unfold parse_chase at h
  split at h
  · cases h; rfl
  · cases h

theorem parse_citi_last4 {t : List Char} {r : FieldRecord}
    (h : parse_citi t = Except.ok r) : r.last4 = citiLast4 t := by
  unfold parse_citi at h
  split at h
  · cases h; rfl
  · cases h

theorem parse_bofa_last4 {t : List Char} {r : FieldRecord}
    (h : parse_bofa t = Except.ok r) : r.last4 = bofaLast4 t := by
  unfold parse_bofa at h
  split at h
  · cases h; rfl
  · cases h

theorem parse_hsbc_last4 {t : List Char} {r : FieldRecord}
    (h : parse_hsbc t = Except.ok r) : r.last4 = hsbcLast4 t := by
  unfold parse_hsbc at h
  split at h
  · cases h; rfl
  · cases h

theorem parse_generic_last4 {t : List Char} {r : FieldRecord}
    (h : parse_generic t = Except.ok r) :
    fieldVal t genericLast4Pats = Except.ok r.last4 := by
  unfold parse_generic at h
  split at h
  · cases h
    assumption
  · cases h

/-- The amex parser never raises: all its `find_first_regex` pattern lists
have a mandatory group 1. -/
theorem parse_amex_total (t : List Char) :
    ∃ r, parse_amex t = Except.ok r ∧ r.last4 = amexLast4 t := by
  obtain ⟨v, hv⟩ := @fieldVal_ok t amexVariantPats (by decide)
  obtain ⟨sp, hsp⟩ := @fieldVal_ok t amexPeriodPats (by decide)
  obtain ⟨dd, hdd⟩ := @fieldVal_ok t amexDuePats (by decide)
  obtain ⟨ad, had⟩ := @fieldVal_ok t amexAmountPats (by decide)
  refine ⟨{ issuer := chars "American Express", last4 := amexLast4 t,
            card_variant := v, statement_period := sp.map normalize_spaces,
            due_date := dd.bind try_parse_date, amount_due := ad }, ?_, rfl⟩
  unfold parse_amex
  rw [hv, hsp, hdd, had]

/-!  ## Literal pattern matching and the dead amex alternative -/

theorem matchCPS_foldr_chI :
    ∀ (w s : List Char) (caps : Caps) (k : List Char → Caps → Option (Caps × List Char)),
      matchCPS (w.foldr (fun c r => Regex.cat (chI c) r) Regex.eps) s caps k =
        if matchesCI w s then k (s.drop w.length) caps else none := by
  intro w
  induction w with
  | nil =>
    intro s caps k
    simp [matchesCI, matchCPS]
  | cons c w ih =>
    intro s caps k
    cases s with
    | nil =>
      simp only [List.foldr_cons, matchCPS, chI]
      simp [matchesCI]
    | cons b bs =>
      have hstep : matchCPS ((c :: w).foldr (fun c r => Regex.cat (chI c) r) Regex.eps)
          (b :: bs) caps k =
          if (lowerChar b == lowerChar c) = true then
            matchCPS (w.foldr (fun c r => Regex.cat (chI c) r) Regex.eps) bs caps k
          else none := rfl
      rw [hstep]
      by_cases hb : (lowerChar b == lowerChar c) = true
      · rw [if_pos hb, ih]
        have hm : matchesCI (c :: w) (b :: bs) = matchesCI w bs := by
          simp [matchesCI, hb]
        rw [hm]
        rfl
      · rw [if_neg hb]
        have hm : matchesCI (c :: w) (b :: bs) = false := by
          simp only [matchesCI]
          rw [eq_false_of_ne_true hb]
          rfl
        rw [hm]
        rfl

theorem strI_match (w : String) (s : List Char) (caps : Caps)
    (k : List Char → Caps → Option (Caps × List Char)) :
    matchCPS (strI w) s caps k =
      if matchesCI (chars w) s then k (s.drop (chars w).length) caps else none :=
  matchCPS_foldr_chI (chars w) s caps k

theorem matchCPS_memberBranch_none {s : List Char} {caps : Caps}
    {k : List Char → Caps → Option (Caps × List Char)}
    (h : matchesCI (chars "Card Member since") s = false) :
    matchCPS (Regex.cat (strI "Card Member since") dotNoNL) s caps k = none := by
  have hcat : matchCPS (Regex.cat (strI "Card Member since") dotNoNL) s caps k =
      matchCPS (strI "Card Member since") s caps
        (fun s1 c1 => matchCPS dotNoNL s1 c1 k) := rfl
  rw [hcat, strI_match, if_neg]
  simp [h]

theorem containsCI_cons_false {w c rest} (h : containsCI w (c :: rest) = false) :
    matchesCI w (c :: rest) = false ∧ containsCI w rest = false := by
  simp only [containsCI, Bool.or_eq_false_iff] at h
  exact h

theorem reSearchAux_amexA_noMember :
    ∀ (t : List Char), containsCI (chars "Card Member since") t = false →
      reSearchAux reAmexLast4A t = reSearchAux reCardEndingIn t := by
  intro t
  induction t with
  | nil =>
    intro h
    have hm : matchesCI (chars "Card Member since") [] = false := h
    simp only [reSearchAux]
    have : matchCPS reAmexLast4A [] [] searchK = matchCPS reCardEndingIn [] [] searchK := by
      show (match matchCPS (Regex.cat (strI "Card Member since") dotNoNL) [] [] searchK with
        | some res => some res
        | none => matchCPS reCardEndingIn [] [] searchK) = _
      rw [matchCPS_memberBranch_none hm]
    rw [this]
  | cons c rest ih =>
    intro h
    obtain ⟨hm, hrest⟩ := containsCI_cons_false h
    simp only [reSearchAux]
    have : matchCPS reAmexLast4A (c :: rest) [] searchK =
        matchCPS reCardEndingIn (c :: rest) [] searchK := by
      show (match matchCPS (Regex.cat (strI "Card Member since") dotNoNL) (c :: rest) [] searchK with
        | some res => some res
        | none => matchCPS reCardEndingIn (c :: rest) [] searchK) = _
      rw [matchCPS_memberBranch_none hm]
    rw [this]
    cases hc : matchCPS reCardEndingIn (c :: rest) [] searchK with
    | some pr => rfl
    | none => exact ih hrest

theorem amexLast4_noMember {t : List Char}
    (h : containsCI (chars "Card Member since") t = false) :
    amexLast4 t = amexLast4Spec t := by
  unfold amexLast4 amexLast4Spec
  have hsearch : reSearch reAmexLast4A t = reSearch reCardEndingIn t :=
    reSearchAux_amexA_noMember t h
  rw [hsearch]
  cases h1 : reSearch reCardEndingIn t with
  | some m => simp [if_pos (by rfl : hasGroup reAmexLast4A = true)]
  | none =>
    simp only []
    cases h2 : reSearch reEndingInLazy t with
    | some m => simp [if_pos (by rfl : hasGroup reEndingInLazy = true)]
    | none => rfl

/-!  ## Substring containment lemmas -/

theorem isPrefixCh_iff : ∀ {a b : List Char}, isPrefixCh a b = true ↔ ∃ v, b = a ++ v := by
  intro a
  induction a with
  | nil => intro b; simp [isPrefixCh]
  | cons x xs ih =>
    intro b
    cases b with
    | nil =>
      simp only [isPrefixCh]
      constructor
      · intro h; cases h
      · intro ⟨v, hv⟩; cases hv
    | cons y ys =>
      simp only [isPrefixCh, Bool.and_eq_true, beq_iff_eq]
      constructor
      · intro ⟨hxy, hp⟩
        obtain ⟨v, hv⟩ := ih.mp hp
        exact ⟨v, by rw [hxy, hv]; rfl⟩
      · intro ⟨v, hv⟩
        injection hv with h1 h2
        exact ⟨h1.symm, ih.mpr ⟨v, h2⟩⟩

theorem isSubstr_iff : ∀ {s pat : List Char},
    isSubstr pat s = true ↔ ∃ u v, s = u ++ pat ++ v := by
  intro s
  induction s with
  | nil =>
    intro pat
    simp only [isSubstr]
    rw [isPrefixCh_iff]
    constructor
    · intro ⟨v, hv⟩; exact ⟨[], v, hv⟩
    · intro ⟨u, v, hv⟩
      cases u with
      | nil => exact ⟨v, hv⟩
      | cons _ _ => cases hv
  | cons c rest ih =>
    intro pat
    simp only [isSubstr, Bool.or_eq_true]
    constructor
    · intro h
      rcases h with h | h
      · obtain ⟨v, hv⟩ := isPrefixCh_iff.mp h
        exact ⟨[], v, hv⟩
      · obtain ⟨u, v, hv⟩ := ih.mp h
        exact ⟨c :: u, v, by rw [hv]; rfl⟩
    · intro ⟨u, v, hv⟩
      cases u with
      | nil =>
        left
        exact isPrefixCh_iff.mpr ⟨v, hv⟩
      | cons x xs =>
        right
        injection hv with h1 h2
        exact ih.mpr ⟨xs, v, h2⟩

theorem isSubstr_trans {a b c : List Char} (h1 : isSubstr a b = true)
    (h2 : isSubstr b c = true) : isSubstr a c = true := by
  obtain ⟨u1, v1, hb⟩ := isSubstr_iff.mp h1
  obtain ⟨u2, v2, hc⟩ := isSubstr_iff.mp h2
  refine isSubstr_iff.mpr ⟨u2 ++ u1, v1 ++ v2, ?_⟩
  rw [hc, hb]
  simp [List.append_assoc]

/-!  ## Classifier refinement -/

theorem detect_issuer_eq_classifySpec (t : List Char) :
    detect_issuer t = classifySpec t := by
  by_cases h1 : (isSubstr (chars "american express") (lowerL t) ||
      isSubstr (chars "amex") (lowerL t)) = true
  · simp [detect_issuer, classifySpec, issuerRules, h1]
  by_cases h2 : (isSubstr (chars "chase") (lowerL t) ||
      isSubstr (chars "chase cardmember") (lowerL t)) = true
  · simp [detect_issuer, classifySpec, issuerRules, h1, h2]
  by_cases h3 : (isSubstr (chars "citibank") (lowerL t) ||
      isSubstr (chars "citi") (lowerL t)) = true
  · simp [detect_issuer, classifySpec, issuerRules, h1, h2, h3]
  by_cases h4 : (isSubstr (chars "bank of america") (lowerL t) ||
      isSubstr (chars "bofa") (lowerL t)) = true
  · simp [detect_issuer, classifySpec, issuerRules, h1, h2, h3, h4]
  by_cases h5 : isSubstr (chars "hsbc") (lowerL t) = true
  · simp [detect_issuer, classifySpec, issuerRules, h1, h2, h3, h4, h5]
  · simp [detect_issuer, classifySpec, issuerRules, h1, h2, h3, h4, h5]

theorem detect_issuer_mem (t : List Char) :
    detect_issuer t ∈ [chars "American Express", chars "Chase", chars "Citi",
      chars "Bank of America", chars "HSBC", chars "Unknown"] := by
  simp only [detect_issuer]
  split_ifs <;> simp

/-!  ## Date formatting -/

theorem isAsciiDigit_dg (n : Nat) : isAsciiDigit (dg n) = true := by
  have h : n % 10 < 10 := Nat.mod_lt _ (by decide)
  unfold dg
  revert h
  generalize n % 10 = k
  intro h
  interval_cases k <;> decide

theorem isoShape_isoFormat (d : PyDate) : isoShape (isoFormat d) = true := by
  simp [isoFormat, isoShape, isAsciiDigit_dg]

theorem try_parse_date_of_error {s : List Char} {e : String}
    (h : dateutil_parse s = Except.error e) : try_parse_date s = none := by
  unfold try_parse_date
  rw [h]

theorem try_parse_date_of_ok {s : List Char} {d : PyDate}
    (h : dateutil_parse s = Except.ok d) : try_parse_date s = some (isoFormat d) := by
  unfold try_parse_date
  rw [h]

/-!  ## Normalization lemmas -/

theorem dropWhile_head_false {p : Char → Bool} :
    ∀ {l : List Char} {c : Char}, (l.dropWhile p).head? = some c → p c = false := by
  intro l
  induction l with
  | nil => intro c h; cases h
  | cons d rest ih =>
    intro c h
    by_cases hd : p d
    · rw [List.dropWhile_cons_of_pos hd] at h
      exact ih h
    · rw [List.dropWhile_cons_of_neg hd] at h
      cases h
      exact eq_false_of_ne_true hd

theorem takeWhile_mem_true {p : Char → Bool} :
    ∀ {l : List Char} {c : Char}, c ∈ l.takeWhile p → p c = true := by
  intro l
  induction l with
  | nil => intro c h; cases h
  | cons d rest ih =>
    intro c h
    by_cases hd : p d
    · rw [List.takeWhile_cons_of_pos hd] at h
      rcases List.mem_cons.mp h with rfl | h
      · exact hd
      · exact ih h
    · rw [List.takeWhile_cons_of_neg hd] at h
      cases h

theorem dropTrail_decomp (m : List Char) :
    ∃ tr, m = dropTrailWs m ++ tr ∧ ∀ c ∈ tr, isSpacePy c = true := by
  refine ⟨(m.reverse.takeWhile isSpacePy).reverse, ?_, ?_⟩
  · unfold dropTrailWs
    conv =>
      lhs
      rw [← List.reverse_reverse m]
      rw [← List.takeWhile_append_dropWhile isSpacePy m.reverse]
    rw [List.reverse_append]
  · intro c hc
    exact takeWhile_mem_true (List.mem_reverse.mp hc)

theorem stripL_decomp (l : List Char) :
    ∃ lead tr, l = lead ++ stripL l ++ tr ∧ (∀ c ∈ lead, isSpacePy c = true) ∧
      ∀ c ∈ tr, isSpacePy c = true := by
  obtain ⟨tr, htr, htrws⟩ := dropTrail_decomp (l.dropWhile isSpacePy)
  refine ⟨l.takeWhile isSpacePy, tr, ?_, fun c hc => takeWhile_mem_true hc, htrws⟩
  conv =>
    lhs
    rw [← List.takeWhile_append_dropWhile isSpacePy l]
  rw [htr]
  simp [stripL, List.append_assoc]

theorem stripL_head_not_ws {l : List Char} {c : Char}
    (h : (stripL l).head? = some c) : isSpacePy c = false := by
  obtain ⟨tr, htr, _⟩ := dropTrail_decomp (l.dropWhile isSpacePy)
  have hh : (l.dropWhile isSpacePy).head? = some c := by
    rw [htr]
    cases hs : stripL l with
    | nil => rw [hs] at h; cases h
    | cons x xs =>
      rw [hs] at h
      have hxs : dropTrailWs (List.dropWhile isSpacePy l) = x :: xs := hs
      rw [hxs]
      simpa using h
  exact dropWhile_head_false hh

theorem stripL_getLast_not_ws {l : List Char} {c : Char}
    (h : (stripL l).getLast? = some c) : isSpacePy c = false := by
  unfold stripL dropTrailWs at h
  rw [List.getLast?_reverse] at h
  exact dropWhile_head_false h

theorem subSpacesB_mem_ws :
    ∀ (l : List Char) (b : Bool), ∀ c ∈ subSpacesB b l, isSpacePy c = true → c = ' ' := by
  intro l
  induction l with
  | nil => intro b c hc; cases hc
  | cons d rest ih =>
    intro b c hc hws
    simp only [subSpacesB] at hc
    by_cases hd : isSpacePy d
    · rw [if_pos hd] at hc
      cases b with
      | true => exact ih true c hc hws
      | false =>
        rw [if_neg Bool.false_ne_true] at hc
        rcases List.mem_cons.mp hc with rfl | hc
        · rfl
        · exact ih true c hc hws
    · rw [if_neg hd] at hc
      rcases List.mem_cons.mp hc with rfl | hc
      · exact absurd hws (by simp [hd])
      · exact ih false c hc hws

theorem subSpacesB_true_head :
    ∀ (l : List Char) {c : Char}, (subSpacesB true l).head? = some c → isSpacePy c = false := by
  intro l
  induction l with
  | nil => intro c h; cases h
  | cons d rest ih =>
    intro c h
    simp only [subSpacesB] at h
    by_cases hd : isSpacePy d
    · rw [if_pos hd] at h
      simp only [if_true] at h
      exact ih h
    · rw [if_neg hd] at h
      cases h
      exact eq_false_of_ne_true hd

theorem subSpacesB_chain :
    ∀ (l : List Char) (b : Bool),
      List.Chain' (fun a c => isSpacePy a = false ∨ isSpacePy c = false) (subSpacesB b l) := by
  intro l
  induction l with
  | nil => intro b; simp [subSpacesB]
  | cons d rest ih =>
    intro b
    simp only [subSpacesB]
    by_cases hd : isSpacePy d
    · rw [if_pos hd]
      cases b with
      | true => exact ih true
      | false =>
        rw [if_neg Bool.false_ne_true]
        rw [List.chain'_cons']
        refine ⟨?_, ih true⟩
        intro y hy
        exact Or.inr (subSpacesB_true_head rest hy)
    · rw [if_neg hd]
      rw [List.chain'_cons']
      refine ⟨?_, ih false⟩
      intro y hy
      exact Or.inl (eq_false_of_ne_true hd)

theorem chainRW_reverse {l : List Char}
    (h : List.Chain' (fun a c => isSpacePy a = false ∨ isSpacePy c = false) l) :
    List.Chain' (fun a c => isSpacePy a = false ∨ isSpacePy c = false) l.reverse := by
  rw [List.chain'_reverse]
  exact List.Chain'.imp (fun a c hac => hac.symm) h

theorem chainRW_stripL {l : List Char}
    (h : List.Chain' (fun a c => isSpacePy a = false ∨ isSpacePy c = false) l) :
    List.Chain' (fun a c => isSpacePy a = false ∨ isSpacePy c = false) (stripL l) := by
  have h1 := h.suffix (List.dropWhile_suffix isSpacePy)
  unfold stripL dropTrailWs
  refine chainRW_reverse ?_
  exact (chainRW_reverse h1).suffix (List.dropWhile_suffix isSpacePy)

theorem stripL_mem {l : List Char} {c : Char} (h : c ∈ stripL l) : c ∈ l := by
  obtain ⟨lead, tr, hdec, _, _⟩ := stripL_decomp l
  rw [hdec]
  simp only [List.mem_append]
  exact Or.inl (Or.inr h)

theorem subSpacesB_true_eq :
    ∀ l : List Char, subSpacesB true l = subSpacesB false (l.dropWhile isSpacePy) := by
  intro l
  induction l with
  | nil => rfl
  | cons c rest ih =>
    by_cases hc : isSpacePy c
    · rw [List.dropWhile_cons_of_pos hc]
      simp only [subSpacesB, if_pos hc, if_true]
      exact ih
    · rw [List.dropWhile_cons_of_neg hc]
      simp only [subSpacesB, if_neg hc]

theorem subSpacesB_nonws_append :
    ∀ (w y : List Char), (∀ c ∈ w, isSpacePy c = false) →
      subSpacesB false (w ++ y) = w ++ subSpacesB false y := by
  intro w
  induction w with
  | nil => intro y _; rfl
  | cons c w ih =>
    intro y hw
    have hc : isSpacePy c = false := hw c (List.mem_cons_self _ _)
    show subSpacesB false (c :: (w ++ y)) = c :: (w ++ subSpacesB false y)
    simp only [subSpacesB, hc]
    rw [if_neg Bool.false_ne_true]
    rw [ih y (fun x hx => hw x (List.mem_cons_of_mem _ hx))]

theorem stripL_ws_cons {c : Char} {x : List Char} (hc : isSpacePy c = true) :
    stripL (c :: x) = stripL x := by
  unfold stripL
  rw [List.dropWhile_cons_of_pos hc]

theorem wsWords_dropWhile :
    ∀ l : List Char, wsWords (l.dropWhile isSpacePy) = wsWords l := by
  intro l
  induction l with
  | nil => rfl
  | cons c rest ih =>
    by_cases hc : isSpacePy c
    · rw [List.dropWhile_cons_of_pos hc, ih]
      rw [wsWords]
      rw [if_pos hc]
    · rw [List.dropWhile_cons_of_neg hc]

theorem takeWhile_all {p : Char → Bool} :
    ∀ {l : List Char}, (∀ c ∈ l, p c = true) → l.takeWhile p = l := by
  intro l
  induction l with
  | nil => intro _; rfl
  | cons c rest ih =>
    intro h
    rw [List.takeWhile_cons_of_pos (h c (List.mem_cons_self _ _))]
    rw [ih (fun x hx => h x (List.mem_cons_of_mem _ hx))]

theorem dropWhile_all {p : Char → Bool} :
    ∀ {l : List Char}, (∀ c ∈ l, p c = true) → l.dropWhile p = [] := by
  intro l
  induction l with
  | nil => intro _; rfl
  | cons c rest ih =>
    intro h
    rw [List.dropWhile_cons_of_pos (h c (List.mem_cons_self _ _))]
    exact ih (fun x hx => h x (List.mem_cons_of_mem _ hx))

theorem takeWhile_append_stop {p : Char → Bool} :
    ∀ {u : List Char} {d : Char} {v : List Char}, (∀ c ∈ u, p c = true) → p d = false →
      (u ++ d :: v).takeWhile p = u := by
  intro u
  induction u with
  | nil =>
    intro d v _ hd
    show (d :: v).takeWhile p = []
    rw [List.takeWhile_cons_of_neg (by rw [hd]; exact Bool.false_ne_true)]
  | cons c u ih =>
    intro d v hu hd
    show ((c :: (u ++ d :: v)).takeWhile p) = c :: u
    rw [List.takeWhile_cons_of_pos (hu c (List.mem_cons_self _ _))]
    rw [ih (fun x hx => hu x (List.mem_cons_of_mem _ hx)) hd]

theorem dropWhile_append_stop {p : Char → Bool} :
    ∀ {u : List Char} {d : Char} {v : List Char}, (∀ c ∈ u, p c = true) → p d = false →
      (u ++ d :: v).dropWhile p = d :: v := by
  intro u
  induction u with
  | nil =>
    intro d v _ hd
    show (d :: v).dropWhile p = d :: v
    rw [List.dropWhile_cons_of_neg (by rw [hd]; exact Bool.false_ne_true)]
  | cons c u ih =>
    intro d v hu hd
    show ((c :: (u ++ d :: v)).dropWhile p) = d :: v
    rw [List.dropWhile_cons_of_pos (hu c (List.mem_cons_self _ _))]
    exact ih (fun x hx => hu x (List.mem_cons_of_mem _ hx)) hd

theorem dropTrailWs_append_single {w : List Char}
    (hw : ∀ c ∈ w, isSpacePy c = false) : dropTrailWs (w ++ [' ']) = w := by
  unfold dropTrailWs
  rw [List.reverse_append]
  show ((' ' :: w.reverse).dropWhile isSpacePy).reverse = w
  rw [List.dropWhile_cons_of_pos (by decide)]
  rw [dropWhile_of_none (fun c hc => hw c (List.mem_reverse.mp hc))]
  exact List.reverse_reverse w

theorem stripL_word_single {c : Char} {w : List Char}
    (hw : ∀ x ∈ c :: w, isSpacePy x = false) : stripL ((c :: w) ++ [' ']) = c :: w := by
  unfold stripL
  rw [List.cons_append]
  rw [List.dropWhile_cons_of_neg
    (by rw [hw c (List.mem_cons_self _ _)]; exact Bool.false_ne_true)]
  rw [← List.cons_append]
  exact dropTrailWs_append_single hw

theorem stripL_glue {c e : Char} {w x : List Char}
    (hw : ∀ y ∈ c :: w, isSpacePy y = false) (he : isSpacePy e = false) :
    stripL ((c :: w) ++ ' ' :: e :: x) = (c :: w) ++ ' ' :: dropTrailWs (e :: x) := by
  unfold stripL
  rw [List.cons_append]
  rw [List.dropWhile_cons_of_neg
    (by rw [hw c (List.mem_cons_self _ _)]; exact Bool.false_ne_true)]
  rw [← List.cons_append]
  unfold dropTrailWs
  rw [List.reverse_append]
  rw [List.reverse_cons, List.append_assoc]
  rw [List.dropWhile_append]
  have hne : ((e :: x).reverse.dropWhile isSpacePy).isEmpty = false := by
    cases hdd : (e :: x).reverse.dropWhile isSpacePy with
    | nil =>
      have hall := List.dropWhile_eq_nil_iff.mp hdd
      have hmem : e ∈ (e :: x).reverse := List.mem_reverse.mpr (List.mem_cons_self _ _)
      rw [hall e hmem] at he
      cases he
    | cons a l => rfl
  rw [if_neg (by rw [hne]; exact Bool.false_ne_true)]
  simp [List.reverse_append, List.reverse_reverse, List.append_assoc]

theorem wsWords_nil : wsWords [] = [] := by
  rw [wsWords]

theorem wsWords_sound :
    ∀ (l : List Char), ∀ w ∈ wsWords l, w ≠ [] ∧ ∀ c ∈ w, isSpacePy c = false := by
  intro l
  induction l using wsWords.induct with
  | case1 => intro w hw; rw [wsWords_nil] at hw; cases hw
  | case2 c rest hc ih =>
    intro w hw
    rw [wsWords, if_pos hc] at hw
    exact ih w hw
  | case3 c rest hc ih =>
    intro w hw
    rw [wsWords, if_neg hc] at hw
    rcases List.mem_cons.mp hw with rfl | hw
    · refine ⟨by simp, ?_⟩
      intro x hx
      rcases List.mem_cons.mp hx with rfl | hx
      · exact eq_false_of_ne_true hc
      · simpa using takeWhile_mem_true hx
    · exact ih w hw

theorem wsWords_joinWords :
    ∀ W : List (List Char), (∀ w ∈ W, w ≠ [] ∧ ∀ c ∈ w, isSpacePy c = false) →
      wsWords (joinWords W) = W := by
  intro W
  induction W with
  | nil => intro _; exact wsWords_nil
  | cons w ws ih =>
    intro h
    obtain ⟨hne, hw⟩ := h w (List.mem_cons_self _ _)
    obtain ⟨c, w1, rfl⟩ := List.exists_cons_of_ne_nil hne
    have hcF : isSpacePy c = false := hw c (List.mem_cons_self _ _)
    have hw1 : ∀ x ∈ w1, (fun y => !isSpacePy y) x = true := by
      intro x hx
      simp [hw x (List.mem_cons_of_mem _ hx)]
    cases ws with
    | nil =>
      show wsWords (c :: w1) = [c :: w1]
      rw [wsWords, if_neg (by rw [hcF]; exact Bool.false_ne_true)]
      rw [takeWhile_all hw1, dropWhile_all hw1, wsWords_nil]
    | cons z zs =>
      show wsWords ((c :: w1) ++ ' ' :: joinWords (z :: zs)) = (c :: w1) :: z :: zs
      rw [List.cons_append]
      rw [wsWords, if_neg (by rw [hcF]; exact Bool.false_ne_true)]
      rw [takeWhile_append_stop hw1 (by decide), dropWhile_append_stop hw1 (by decide)]
      rw [wsWords, if_pos (by decide)]
      rw [ih (fun u hu => h u (List.mem_cons_of_mem _ hu))]

theorem normalize_eq_joinWords_aux :
    ∀ (n : Nat) (l : List Char), l.length ≤ n →
      normalize_spaces l = joinWords (wsWords l) := by
  intro n
  induction n with
  | zero =>
    intro l hl
    have h0 : l = [] := List.eq_nil_of_length_eq_zero (Nat.le_zero.mp hl)
    subst h0
    rw [wsWords_nil]
    rfl
  | succ n ih =>
    intro l hl
    cases l with
    | nil => rw [wsWords_nil]; rfl
    | cons c rest =>
      have hrest : rest.length ≤ n := Nat.le_of_succ_le_succ (by simpa using hl)
      by_cases hc : isSpacePy c = true
      · have h1 : normalize_spaces (c :: rest) =
            normalize_spaces (rest.dropWhile isSpacePy) := by
          unfold normalize_spaces
          show stripL (subSpacesB false (c :: rest)) = _
          simp only [subSpacesB, if_pos hc]
          rw [if_neg Bool.false_ne_true]
          rw [subSpacesB_true_eq]
          exact stripL_ws_cons (by decide)
        rw [h1]
        rw [ih _ (le_trans (List.dropWhile_sublist isSpacePy).length_le hrest)]
        rw [wsWords_dropWhile]
        rw [wsWords, if_pos hc]
      · have hcF : isSpacePy c = false := eq_false_of_ne_true hc
        have hword : ∀ y ∈ c :: rest.takeWhile (fun x => !isSpacePy x), isSpacePy y = false := by
          intro y hy
          rcases List.mem_cons.mp hy with rfl | hy
          · exact hcF
          · simpa using takeWhile_mem_true hy
        have hdecomp : c :: rest =
            (c :: rest.takeWhile (fun x => !isSpacePy x)) ++
              rest.dropWhile (fun x => !isSpacePy x) := by
          rw [List.cons_append, List.takeWhile_append_dropWhile]
        have hsub : subSpacesB false (c :: rest) =
            (c :: rest.takeWhile (fun x => !isSpacePy x)) ++
              subSpacesB false (rest.dropWhile (fun x => !isSpacePy x)) := by
          conv =>
            lhs
            rw [hdecomp]
          exact subSpacesB_nonws_append _ _ hword
        have hwords : wsWords (c :: rest) =
            (c :: rest.takeWhile (fun x => !isSpacePy x)) ::
              wsWords (rest.dropWhile (fun x => !isSpacePy x)) := by
          rw [wsWords, if_neg hc]
        cases hdw : rest.dropWhile (fun x => !isSpacePy x) with
        | nil =>
          unfold normalize_spaces
          rw [hsub, hdw]
          show stripL ((c :: rest.takeWhile (fun x => !isSpacePy x)) ++ []) = _
          rw [List.append_nil]
          rw [stripL_of_no_ws hword]
          rw [hwords, hdw, wsWords_nil]
          rfl
        | cons d y2 =>
          have hlen_dw : (rest.dropWhile (fun x => !isSpacePy x)).length ≤ n :=
            le_trans (List.dropWhile_sublist _).length_le hrest
          have hd : isSpacePy d = true := by
            have := dropWhile_head_false (p := fun x => !isSpacePy x)
              (l := rest) (c := d) (by rw [hdw]; rfl)
            simpa using this
          have hsub2 : subSpacesB false (d :: y2) =
              ' ' :: subSpacesB false (y2.dropWhile isSpacePy) := by
            simp only [subSpacesB, if_pos hd]
            rw [if_neg Bool.false_ne_true]
            rw [subSpacesB_true_eq]
          have hlen_y3 : (y2.dropWhile isSpacePy).length ≤ n := by
            have h2 : y2.length ≤ n := by
              have := hlen_dw
              rw [hdw] at this
              simp only [List.length_cons] at this
              omega
            exact le_trans (List.dropWhile_sublist isSpacePy).length_le h2
          have hwy : wsWords (d :: y2) = wsWords (y2.dropWhile isSpacePy) := by
            rw [wsWords, if_pos hd, ← wsWords_dropWhile y2]
          cases hy3 : y2.dropWhile isSpacePy with
          | nil =>
            unfold normalize_spaces
            rw [hsub, hdw, hsub2, hy3]
            show stripL ((c :: rest.takeWhile (fun x => !isSpacePy x)) ++ [' ']) = _
            rw [stripL_word_single hword]
            rw [hwords, hdw, hwy, hy3, wsWords_nil]
            rfl
          | cons e y4 =>
            have he : isSpacePy e = false := by
              have := dropWhile_head_false (p := isSpacePy)
                (l := y2) (c := e) (by rw [hy3]; rfl)
              exact this
            have hsub3 : subSpacesB false (e :: y4) = e :: subSpacesB false y4 := by
              simp only [subSpacesB]
              rw [if_neg (by rw [he]; exact Bool.false_ne_true)]
            have hstrip_e : stripL (e :: subSpacesB false y4) =
                dropTrailWs (e :: subSpacesB false y4) := by
              unfold stripL
              rw [List.dropWhile_cons_of_neg (by rw [he]; exact Bool.false_ne_true)]
            have hnorm3 : normalize_spaces (e :: y4) = joinWords (wsWords (e :: y4)) :=
              ih _ (by rw [← hy3]; exact hlen_y3)
            have hwnonempty : ∃ z zs, wsWords (e :: y4) = z :: zs :=
              ⟨_, _, by rw [wsWords, if_neg (by rw [he]; exact Bool.false_ne_true)]⟩
            obtain ⟨z, zs, hzzs⟩ := hwnonempty
            unfold normalize_spaces
            rw [hsub, hdw, hsub2, hy3, hsub3]
            rw [stripL_glue hword he]
            rw [← hstrip_e, ← hsub3]
            have : stripL (subSpacesB false (e :: y4)) = normalize_spaces (e :: y4) := rfl
            rw [this, hnorm3]
            rw [hwords, hdw, hwy, hy3, hzzs]
            rw [joinWords]

theorem normalize_eq_joinWords (l : List Char) :
    normalize_spaces l = joinWords (wsWords l) :=
  normalize_eq_joinWords_aux l.length l (le_refl _)

theorem normalize_spaces_idem (l : List Char) :
    normalize_spaces (normalize_spaces l) = normalize_spaces l := by
  rw [normalize_eq_joinWords l, normalize_eq_joinWords (joinWords (wsWords l))]
  rw [wsWords_joinWords _ (wsWords_sound l)]

/-!  ## Claim theorems -/

/-- C1 (code-bug evidence): on the scenario-C text the pipeline does
dispatch to the generic extractor with issuer `Unknown`, but because
`parse_generic`'s patterns wrap the field LABEL in group 1 and
`find_first_regex` returns group 1, the record carries `amount_due =
"Amount Due"` (the label) and `due_date = none` (`try_parse_date "Due
Date"` fails) instead of the spec's `100.00` and `2024-07-01`. -/
theorem c1_generic_label_capture_eval :
    okOf (parse_statement_from_text
        (chars "Card Type: Rewards Due Date: 2024-07-01 Amount Due: 100.00")) =
      some ({ issuer := chars "Unknown", last4 := none,
              card_variant := some (chars "Rewards Due Date"),
              statement_period := none, due_date := none,
              amount_due := some (chars "Amount Due") },
            chars "Card Type: Rewards Due Date: 2024-07-01 Amount Due: 100.00") := by
  decide

/-- C2 (amended): for the scenario-A text itself — the five phrases joined
by single spaces — the pipeline produces issuer `American Express`,
last4 `1234`, card_variant `Platinum`, due_date `2024-03-05`,
amount_due `523.10`. -/
theorem c2_scenarioA :
    okOf (parse_statement_from_text
        (chars "American Express Card ending in: 1234 Platinum Card Payment Due Date: March 5, 2024 Total Amount Due: $523.10")) =
      some ({ issuer := chars "American Express", last4 := some (chars "1234"),
              card_variant := some (chars "Platinum"), statement_period := none,
              due_date := some (chars "2024-03-05"),
              amount_due := some (chars "523.10") },
            chars "American Express Card ending in: 1234 Platinum Card Payment Due Date: March 5, 2024 Total Amount Due: $523.10") := by
  decide

/-- C2 (counterexample to the claim as stated): a text containing the five
phrases in order, separated by other words, on which the pipeline reports
amount_due `1.00` (the separator words contain an earlier match of the
`Amount Due` pattern), not `523.10`. -/
theorem c2_counterexample :
    (okOf (parse_statement_from_text
        (chars "American Express" ++ chars " " ++ chars "Card ending in: 1234" ++
         chars " " ++ chars "Platinum Card" ++ chars " Amount Due: $1.00 " ++
         chars "Payment Due Date: March 5, 2024" ++ chars " " ++
         chars "Total Amount Due: $523.10"))).map (fun x => x.1.amount_due) =
      some (some (chars "1.00")) ∧
    chars "1.00" ≠ chars "523.10" := by
  exact ⟨by decide, by decide⟩

/-- C3 (amended): on any text that does not contain "card member since"
(case-insensitively) but in which an "ending in" phrase followed by four
digits occurs (the code's own fallback pattern matches), `parse_amex`
returns a present last4, namely the group-1 capture of the first
successful alternative (`Card ending in …` before bare `ending in …`),
and it is four decimal digits. -/
theorem c3_amex_last4 :
    ∀ t : List Char, containsCI (chars "Card Member since") t = false →
      (reSearch reEndingInLazy t).isSome = true →
      ∃ r, parse_amex t = Except.ok r ∧ r.last4 = amexLast4Spec t ∧
        ∃ d, r.last4 = some d ∧ d.length = 4 ∧ d.all isDigitPy = true := by
  intro t hmem hsome
  obtain ⟨r, hr, hlast⟩ := parse_amex_total t
  refine ⟨r, hr, ?_, ?_⟩
  · rw [hlast]
    exact amexLast4_noMember hmem
  · rw [hlast, amexLast4_noMember hmem]
    unfold amexLast4Spec
    cases h1 : reSearch reCardEndingIn t with
    | some m =>
      simp only []
      obtain ⟨d0, hd0⟩ := (reSearch_sound h1).2.2 (by decide)
      cases hl : lookupCap 1 m.caps with
      | some g =>
        exact ⟨g, by simp [hl], capIn_reCardEndingIn ((reSearch_sound h1).2.1 (1, g) (lookupCap_mem hl))⟩
      | none =>
        have hcontra := lookupCap_isSome_of_mem hd0
        rw [hl] at hcontra
        cases hcontra
    | none =>
      simp only []
      obtain ⟨m, hm⟩ := Option.isSome_iff_exists.mp hsome
      rw [hm]
      obtain ⟨d0, hd0⟩ := (reSearch_sound hm).2.2 (by decide)
      cases hl : lookupCap 1 m.caps with
      | some g =>
        exact ⟨g, by simp [hl], capIn_reEndingInLazy ((reSearch_sound hm).2.1 (1, g) (lookupCap_mem hl))⟩
      | none =>
        have hcontra := lookupCap_isSome_of_mem hd0
        rw [hl] at hcontra
        cases hcontra

/-- C3 (witness). -/
theorem c3_amex_last4_witness :
    containsCI (chars "Card Member since") (chars "Statement Card ending in: 9876") = false ∧
    (reSearch reEndingInLazy (chars "Statement Card ending in: 9876")).isSome = true ∧
    ∃ r, parse_amex (chars "Statement Card ending in: 9876") = Except.ok r ∧
      r.last4 = amexLast4Spec (chars "Statement Card ending in: 9876") ∧
      ∃ d, r.last4 = some d ∧ d.length = 4 ∧ d.all isDigitPy = true :=
  ⟨by decide, by decide, c3_amex_last4 _ (by decide) (by decide)⟩

/-- C3 (counterexample to the claim as stated): in this text an
"ending in" phrase followed by four digits occurs (the code's own
pattern finds it), yet the amex extractor returns last4 = none, because
the `Card Member since.*` alternative matches first and its group 1 does
not participate. -/
theorem c3_counterexample :
    (reSearch reEndingInLazy (chars "Card Member since 1990 Card ending in: 1234")).isSome = true ∧
    (okOf (parse_amex (chars "Card Member since 1990 Card ending in: 1234"))).map
        (fun r => r.last4) = some none := by
  exact ⟨by decide, by decide⟩

/-- C4 (amended): for every text T and patterns [P1, P2] both matching T,
match_first returns P1's result — group 1 trimmed if P1 has a capturing
group, else the whole span trimmed — regardless of P2, PROVIDED that
whenever P1 has capturing groups its group 1 participates in the match
(otherwise the Python code raises, modelled as `Except.error`); and
match_first returns no match exactly when no pattern in the list
matches. -/
theorem c4_match_first :
    (∀ (t : List Char) (P1 P2 : Regex) (m1 : MatchRes),
      reSearch P1 t = some m1 → (reSearch P2 t).isSome = true →
      (hasGroup P1 = true → (lookupCap 1 m1.caps).isSome = true) →
      ∃ v, find_first_regex t [P1, P2] = Except.ok (some (P1, v)) ∧
        ((hasGroup P1 = true ∧ ∃ g, lookupCap 1 m1.caps = some g ∧ v = stripL g) ∨
         (hasGroup P1 = false ∧ v = stripL m1.whole))) ∧
    (∀ (t : List Char) (ps : List Regex),
      find_first_regex t ps = Except.ok none ↔ ∀ p ∈ ps, reSearch p t = none) := by
  constructor
  · intro t P1 P2 m1 h1 _ hpart
    simp only [find_first_regex, h1]
    by_cases hg : hasGroup P1 = true
    · rw [if_pos hg]
      cases hl : lookupCap 1 m1.caps with
      | some g => exact ⟨stripL g, rfl, Or.inl ⟨hg, g, rfl, rfl⟩⟩
      | none =>
        have hcontra := hpart hg
        rw [hl] at hcontra
        cases hcontra
    · rw [if_neg hg]
      exact ⟨stripL m1.whole, rfl, Or.inr ⟨eq_false_of_ne_true hg, rfl⟩⟩
  · intro t ps
    exact find_first_ok_none_iff

/-- C4 (witness). -/
theorem c4_match_first_witness :
    ∃ v, find_first_regex (chars "ab") [Regex.group 1 (chI 'a'), chI 'b'] =
      Except.ok (some (Regex.group 1 (chI 'a'), v)) ∧
      ((hasGroup (Regex.group 1 (chI 'a')) = true ∧ ∃ g,
          lookupCap 1 (MatchRes.mk (chars "ab") [(1, chars "a")] (chars "b")).caps = some g ∧
          v = stripL g) ∨
       (hasGroup (Regex.group 1 (chI 'a')) = false ∧
          v = stripL (MatchRes.mk (chars "ab") [(1, chars "a")] (chars "b")).whole)) :=
  c4_match_first.1 (chars "ab") (Regex.group 1 (chI 'a')) (chI 'b')
    (MatchRes.mk (chars "ab") [(1, chars "a")] (chars "b"))
    (by decide) (by decide) (fun _ => by decide)

/-- C4 (counterexample to the claim as stated): both patterns match "b",
but the first pattern's group 1 does not participate in its match, so
match_first raises (`None.strip()` in the Python source) instead of
returning the first pattern's capture. -/
theorem c4_counterexample :
    (reSearch (Regex.alt (Regex.group 1 (chI 'a')) (chI 'b')) (chars "b")).isSome = true ∧
    (reSearch (chI 'b') (chars "b")).isSome = true ∧
    find_first_regex (chars "b") [Regex.alt (Regex.group 1 (chI 'a')) (chI 'b'), chI 'b'] =
      Except.error () := by
  refine ⟨by decide, by decide, ?_⟩
  rfl

/-- C5: `try_parse_date` never propagates an error — the invalid calendar
date "February 30, 2024" and the non-date "not a date" both yield none;
every failure of the (spec-modelled) lenient parse yields none rather
than an exception; and on success the result is the calendar date only,
in YYYY-MM-DD shape. -/
theorem c5_date_tolerance :
    try_parse_date (chars "February 30, 2024") = none ∧
    try_parse_date (chars "not a date") = none ∧
    (∀ (s : List Char) (e : String), dateutil_parse s = Except.error e →
      try_parse_date s = none) ∧
    (∀ (s : List Char) (d : PyDate), dateutil_parse s = Except.ok d →
      try_parse_date s = some (isoFormat d) ∧ isoShape (isoFormat d) = true) := by
  refine ⟨by decide, by decide, ?_, ?_⟩
  · intro s e h
    exact try_parse_date_of_error h
  · intro s d h
    exact ⟨try_parse_date_of_ok h, isoShape_isoFormat d⟩

/-- C5 (witness). -/
theorem c5_date_tolerance_witness :
    try_parse_date (chars "no date here") = none ∧
    (try_parse_date (chars "March 5, 2024") = some (isoFormat (PyDate.mk 2024 3 5)) ∧
      isoShape (isoFormat (PyDate.mk 2024 3 5)) = true) :=
  ⟨c5_date_tolerance.2.2.1 (chars "no date here") "string does not contain a date" (by rfl),
   c5_date_tolerance.2.2.2 (chars "March 5, 2024") (PyDate.mk 2024 3 5) (by rfl)⟩

/-- C6: the classifier equals the spec's ordered keyword-rule list
(American Express → Chase → Citi → Bank of America → HSBC, case-insensitive
substring containment, first matching rule wins, `Unknown` as terminal
fallback), always returns a member of the closed six-name set, and maps
the empty string to `Unknown`; being a total Lean function it raises
nothing. -/
theorem c6_classifier :
    (∀ t : List Char, detect_issuer t = classifySpec t) ∧
    (∀ t : List Char, detect_issuer t ∈ [chars "American Express", chars "Chase",
      chars "Citi", chars "Bank of America", chars "HSBC", chars "Unknown"]) ∧
    detect_issuer (chars "") = chars "Unknown" :=
  ⟨detect_issuer_eq_classifySpec, detect_issuer_mem, by decide⟩

/-- C7: on empty upstream text the pipeline still returns a complete
record: issuer `Unknown`, all five optional fields absent, and no error. -/
theorem c7_empty_text :
    okOf (parse_statement_from_text (chars "")) =
      some ({ issuer := chars "Unknown", last4 := none, card_variant := none,
              statement_period := none, due_date := none, amount_due := none },
            chars "") := by
  decide

/-- C8: `normalize_spaces` is idempotent, its output has no two adjacent
whitespace characters, no leading or trailing whitespace, every
whitespace character of the output is a single space, and the output is
exactly the input's maximal non-whitespace runs joined by single spaces
(every maximal whitespace run, newlines included, becomes one space). -/
theorem c8_normalize :
    ∀ l : List Char,
      normalize_spaces (normalize_spaces l) = normalize_spaces l ∧
      List.Chain' (fun a c => isSpacePy a = false ∨ isSpacePy c = false)
        (normalize_spaces l) ∧
      (∀ c, (normalize_spaces l).head? = some c → isSpacePy c = false) ∧
      (∀ c, (normalize_spaces l).getLast? = some c → isSpacePy c = false) ∧
      (∀ c ∈ normalize_spaces l, isSpacePy c = true → c = ' ') ∧
      normalize_spaces l = joinWords (wsWords l) := by
  intro l
  refine ⟨normalize_spaces_idem l, ?_, ?_, ?_, ?_, normalize_eq_joinWords l⟩
  · exact chainRW_stripL (subSpacesB_chain l false)
  · intro c hc
    exact stripL_head_not_ws hc
  · intro c hc
    exact stripL_getLast_not_ws hc
  · intro c hc hws
    exact subSpacesB_mem_ws l false c (stripL_mem hc) hws

/-- C9 (amended): whenever any of the six extractors produces a record
with last4 present, it is exactly 4 characters, each a decimal digit in
the sense of the pattern's `\d` class (Unicode decimal digits — ASCII in
the common case but not necessarily, which is what the original claim
got wrong). -/
theorem c9_last4_shape :
    ∀ (t : List Char) (r : FieldRecord) (g : List Char),
      (parse_amex t = Except.ok r ∨ parse_chase t = Except.ok r ∨
       parse_citi t = Except.ok r ∨ parse_bofa t = Except.ok r ∨
       parse_hsbc t = Except.ok r ∨ parse_generic t = Except.ok r) →
      r.last4 = some g → g.length = 4 ∧ g.all isDigitPy = true := by
  intro t r g hok hg
  rcases hok with h | h | h | h | h | h
  · rw [parse_amex_last4 h] at hg
    exact amexLast4_digits hg
  · rw [parse_chase_last4 h] at hg
    exact chaseLast4_digits hg
  · rw [parse_citi_last4 h] at hg
    exact citiLast4_digits hg
  · rw [parse_bofa_last4 h] at hg
    exact bofaLast4_digits hg
  · rw [parse_hsbc_last4 h] at hg
    exact hsbcLast4_digits hg
  · have hfv := parse_generic_last4 h
    rw [hg] at hfv
    exact genericLast4_digits hfv

/-- C9 (witness). -/
theorem c9_last4_shape_witness :
    (chars "1234").length = 4 ∧ (chars "1234").all isDigitPy = true :=
  c9_last4_shape (chars "Card ending in: 1234")
    (FieldRecord.mk (chars "Unknown") (some (chars "1234")) none none none none)
    (chars "1234")
    (Or.inr (Or.inr (Or.inr (Or.inr (Or.inr (by rfl)))))) (by rfl)

/-- C9 (counterexample to the claim as stated): with Arabic-Indic digit
input, the amex extractor returns a present last4 of four characters
that are not ASCII digits, because Python's `\d` matches Unicode decimal
digits. -/
theorem c9_counterexample :
    okOf (parse_amex (chars "Card ending in ٠١٢٣")) =
      some (FieldRecord.mk (chars "American Express") (some (chars "٠١٢٣"))
        none none none none) ∧
    (chars "٠١٢٣").all Char.isDigit = false := by
  exact ⟨by decide, by decide⟩

/-- C10: any text containing the word "purchase" in any letter case, and
containing neither "american express" nor "amex" (case-insensitively),
is classified as Chase, because "purchase" contains "chase" as a
substring. -/
theorem c10_purchase_chase :
    ∀ t : List Char, isSubstr (chars "purchase") (lowerL t) = true →
      isSubstr (chars "american express") (lowerL t) = false →
      isSubstr (chars "amex") (lowerL t) = false →
      detect_issuer t = chars "Chase" := by
  intro t hp hae hax
  have hch : isSubstr (chars "chase") (lowerL t) = true :=
    isSubstr_trans (by decide) hp
  simp [detect_issuer, hae, hax, hch]

/-- C10 (witness). -/
theorem c10_purchase_chase_witness :
    isSubstr (chars "purchase") (lowerL (chars "PURCHASE history")) = true ∧
    isSubstr (chars "american express") (lowerL (chars "PURCHASE history")) = false ∧
    isSubstr (chars "amex") (lowerL (chars "PURCHASE history")) = false ∧
    detect_issuer (chars "PURCHASE history") = chars "Chase" :=
  ⟨by decide, by decide, by decide,
   c10_purchase_chase (chars "PURCHASE history") (by decide) (by decide) (by decide)⟩
